import Mathlib

/-!
Verification of the directory-synchronization script (`main.py`).

The script is embedded shallowly:

* Relative paths are lists of name components (`Path`); `os.path.join`
  appends components.
* A filesystem directory is an `FsDir`: named subdirectories and named files
  (a file is represented by its byte content, as a string).  `os.walk`
  reports the subdirectory list and the file list of a directory separately
  and the script iterates subdirectories first, which the two separate
  lists mirror; the list order models the (arbitrary but fixed) order in
  which the operating system enumerates a directory.
* `hashlib.md5` digests of readable files are modelled by an injective
  digest of the content (the content itself); the `None` result of
  `calculate_md5` on an unreadable file is represented by `none`, so
  snapshot entries carry `Option String` fingerprints exactly as the
  Python dictionaries carry `str` or `None`.
* Filesystem calls that can raise (`os.makedirs`, `shutil.copy2`,
  `os.remove`, `shutil.rmtree`, and the dictionary access
  `replica_contents[rel_path]["hash"]`) return `Except PyErr`; an
  uncaught exception aborts `synchronize`, exactly as in Python, where
  `main` catches it outside the pass.
* The JSON log file is modelled by `LogFile` (absent, unparsable, or a
  parsed record list); the wall-clock `timestamp` field of a record is
  produced by `datetime.now()` and is outside the model, so a record keeps
  its `operation` and `path` fields.
-/

set_option maxHeartbeats 1000000

namespace Sync

/-- Relative paths as lists of name components. -/
abbrev Path := List String

/-- A snapshot entry value, as built by `get_directory_contents`:
`{"type": "dir"}` or `{"type": "file", "hash": h}` where `h` may be `None`. -/
inductive Info where
  | dir : Info
  | file : Option String → Info
deriving DecidableEq, Repr

instance : Inhabited Info := ⟨Info.dir⟩

/-- One record appended by `log_operation` (without the wall-clock
`timestamp` field, which is outside the model). -/
structure LogEntry where
  operation : String
  path : Path
deriving DecidableEq, Repr

/-- Python exception classes raised by the modelled filesystem calls. -/
inductive PyErr where
  | keyError : PyErr
  | notADirectory : PyErr
  | isADirectory : PyErr
  | fileNotFound : PyErr
deriving DecidableEq, Repr

/-- A directory of the modelled filesystem: named subdirectories and named
files, a file being its byte content. -/
inductive FsDir where
  | mk : List (String × FsDir) → List (String × String) → FsDir

def FsDir.dirs : FsDir → List (String × FsDir)
  | .mk ds _ => ds

def FsDir.files : FsDir → List (String × String)
  | .mk _ fs => fs

def FsDir.empty : FsDir := .mk [] []

instance : Inhabited FsDir := ⟨FsDir.empty⟩

/-- First-match lookup in an association list keyed by names. -/
def lookupA {β : Type} : List (String × β) → String → Option β
  | [], _ => none
  | e :: t, n => if e.1 = n then some e.2 else lookupA t n

/-- Replace the binding of the first occurrence of a key, or append a new
binding at the end of the directory listing. -/
def setA {β : Type} : List (String × β) → String → β → List (String × β)
  | [], n, v => [(n, v)]
  | e :: t, n, v => if e.1 = n then (n, v) :: t else e :: setA t n v

/-- Remove the binding of a key (on a real directory listing, whose names
are unique, at most one binding exists). -/
def removeA {β : Type} (l : List (String × β)) (n : String) : List (String × β) :=
  l.filter (fun e => !(e.1 == n))

/-- What a path resolves to: a directory node or a file's content. -/
inductive FsObj where
  | dirNode : FsDir → FsObj
  | fileNode : String → FsObj

/-- Resolve a relative path in a directory tree (the semantics of
`os.path.exists` and of opening a path). -/
def FsDir.lookupPath : FsDir → Path → Option FsObj
  | d, [] => some (.dirNode d)
  | d, n :: rest =>
    match lookupA d.dirs n with
    | some sub => FsDir.lookupPath sub rest
    | none =>
      match lookupA d.files n with
      | some c =>
        match rest with
        | [] => some (.fileNode c)
        | _ :: _ => none
      | none => none

/-- The kind of entry a path resolves to, forgetting directory contents. -/
inductive EKind where
  | dirK : EKind
  | fileK : String → EKind
deriving DecidableEq, Repr

/-- The kind (and, for a file, the content) found at a path. -/
def FsDir.kindAt (d : FsDir) (p : Path) : Option EKind :=
  match d.lookupPath p with
  | some (.dirNode _) => some .dirK
  | some (.fileNode c) => some (.fileK c)
  | none => none

/-- `os.makedirs(path, exist_ok=True)`: create every missing directory on
the way; raise if some component resolves to a file. -/
def FsDir.makedirs : FsDir → Path → Except PyErr FsDir
  | d, [] => .ok d
  | d, n :: rest =>
    match lookupA d.dirs n with
    | some sub =>
      match FsDir.makedirs sub rest with
      | .error e => .error e
      | .ok sub' => .ok (.mk (setA d.dirs n sub') d.files)
    | none =>
      match lookupA d.files n with
      | some _ => .error .notADirectory
      | none =>
        match FsDir.makedirs FsDir.empty rest with
        | .error e => .error e
        | .ok sub' => .ok (.mk (d.dirs ++ [(n, sub')]) d.files)

/-- The write half of `shutil.copy2`: overwrite or create the target file;
raise if the target is a directory or some parent is missing or a file. -/
def FsDir.writeFile : FsDir → Path → String → Except PyErr FsDir
  | _, [], _ => .error .isADirectory
  | d, [n], c =>
    match lookupA d.dirs n with
    | some _ => .error .isADirectory
    | none => .ok (.mk d.dirs (setA d.files n c))
  | d, n :: rest@(_ :: _), c =>
    match lookupA d.dirs n with
    | some sub =>
      match FsDir.writeFile sub rest c with
      | .error e => .error e
      | .ok sub' => .ok (.mk (setA d.dirs n sub') d.files)
    | none =>
      match lookupA d.files n with
      | some _ => .error .notADirectory
      | none => .error .fileNotFound

/-- `os.remove`: delete a file; raise on a directory or a missing path. -/
def FsDir.removeFile : FsDir → Path → Except PyErr FsDir
  | _, [] => .error .isADirectory
  | d, [n] =>
    match lookupA d.dirs n with
    | some _ => .error .isADirectory
    | none =>
      match lookupA d.files n with
      | some _ => .ok (.mk d.dirs (removeA d.files n))
      | none => .error .fileNotFound
  | d, n :: rest@(_ :: _) =>
    match lookupA d.dirs n with
    | some sub =>
      match FsDir.removeFile sub rest with
      | .error e => .error e
      | .ok sub' => .ok (.mk (setA d.dirs n sub') d.files)
    | none => .error .fileNotFound

/-- `shutil.rmtree`: delete a directory subtree; raise on a file or a
missing path (an `OSError`, which `remove_item` catches). -/
def FsDir.rmtree : FsDir → Path → Except PyErr FsDir
  | _, [] => .error .notADirectory
  | d, [n] =>
    match lookupA d.dirs n with
    | some _ => .ok (.mk (removeA d.dirs n) d.files)
    | none => .error .notADirectory
  | d, n :: rest@(_ :: _) =>
    match lookupA d.dirs n with
    | some sub =>
      match FsDir.rmtree sub rest with
      | .error e => .error e
      | .ok sub' => .ok (.mk (setA d.dirs n sub') d.files)
    | none => .error .notADirectory

/-- `hashlib.md5` on a readable file, modelled by an injective digest of the
content (the content itself).  `calculate_md5` returns `None` exactly when
the file cannot be read, which cannot happen to a file of the modelled
tree, but snapshots carrying `none` fingerprints remain expressible and
model snapshots taken in the presence of read errors. -/
def calculate_md5 (content : String) : Option String :=
  some content

mutual

/-- The snapshot rows inserted by `os.walk` starting at one directory, in
insertion order: the subdirectory entries of the directory, then its file
entries, then recursively the rows of each subdirectory with the
subdirectory name prepended (`os.walk` is top-down depth-first). -/
def walkList : FsDir → List (Path × Info)
  | .mk ds fs =>
    ds.map (fun e => ([e.1], Info.dir))
      ++ fs.map (fun e => ([e.1], Info.file (calculate_md5 e.2)))
      ++ walkKids ds

/-- The recursive part of `walkList`: rows of each subdirectory in listing
order, with the subdirectory name prepended. -/
def walkKids : List (String × FsDir) → List (Path × Info)
  | [] => []
  | (n, sub) :: t => (walkList sub).map (fun q => (n :: q.1, q.2)) ++ walkKids t

end

/-- First-match lookup of a relative path in a snapshot, the semantics of
Python dictionary indexing and of the `in` test on `source_contents` /
`replica_contents` (which have unique keys). -/
def slookup : List (Path × Info) → Path → Option Info
  | [], _ => none
  | e :: t, p => if e.1 = p then some e.2 else slookup t p

/-- `get_directory_contents`: empty snapshot for a missing root, otherwise
the full recursive walk.  The root itself is not a row. -/
def get_directory_contents : Option FsDir → List (Path × Info)
  | none => []
  | some d => walkList d

/-- Key lists without duplicates, as a boolean check. -/
def nodupB : List String → Bool
  | [] => true
  | x :: t => (!(t.contains x)) && nodupB t

mutual

/-- Well-formedness of a modelled directory: within each directory the
subdirectory names and file names are pairwise distinct (as they are on a
real filesystem). -/
def FsDir.wfB : FsDir → Bool
  | .mk ds fs => nodupB (ds.map Prod.fst ++ fs.map Prod.fst) && wfKids ds

/-- Well-formedness of each subdirectory of a listing. -/
def wfKids : List (String × FsDir) → Bool
  | [] => true
  | (_, sub) :: t => FsDir.wfB sub && wfKids t

end

/-- `create_replica_root`: if the replica root is absent, create it and log
a `CREATE` record whose path is the `replica_path` argument itself. -/
def create_replica_root (replica : Option FsDir) (replica_path : Path) :
    FsDir × List LogEntry :=
  match replica with
  | some d => (d, [])
  | none => (FsDir.empty, [⟨"CREATE", replica_path⟩])

/-- `sync_directories`: for every directory row of the source snapshot,
create the replica directory when the relative path is not a key of the
replica snapshot (logging `CREATE`), and mark the path processed. -/
def sync_directories (items repl : List (Path × Info)) (d : FsDir) :
    Except PyErr (FsDir × List LogEntry × List Path) :=
  match items with
  | [] => .ok (d, [], [])
  | (p, i) :: rest =>
    match i with
    | .file _ => sync_directories rest repl d
    | .dir =>
      if slookup repl p = none then
        match d.makedirs p with
        | .error e => .error e
        | .ok d₁ =>
          match sync_directories rest repl d₁ with
          | .error e => .error e
          | .ok (d₂, lg, proc) => .ok (d₂, ⟨"CREATE", p⟩ :: lg, p :: proc)
      else
        match sync_directories rest repl d with
        | .error e => .error e
        | .ok (d₂, lg, proc) => .ok (d₂, lg, p :: proc)

/-- Lines 107–115 of `sync_files`: decide whether a source file needs a
copy and under which operation name.  Indexing `replica_contents[rel_path]`
with `["hash"]` raises `KeyError` when the replica entry is a directory
row, which has no `"hash"` key. -/
def copyDecision (repl : List (Path × Info)) (p : Path) (h : Option String) :
    Except PyErr (Option String) :=
  match slookup repl p with
  | none => .ok (some "COPY")
  | some Info.dir => .error .keyError
  | some (Info.file rh) => if rh ≠ h then .ok (some "UPDATE") else .ok none

/-- `sync_files`: for every file row of the source snapshot, copy the file
when it is absent from the replica snapshot (`COPY`) or its fingerprint
differs (`UPDATE`), creating the parent directory first when the parent
does not exist; mark the path processed either way. -/
def sync_files (items repl : List (Path × Info)) (s r : FsDir) :
    Except PyErr (FsDir × List LogEntry × List Path) :=
  match items with
  | [] => .ok (r, [], [])
  | (p, i) :: rest =>
    match i with
    | .dir => sync_files rest repl s r
    | .file h =>
      match copyDecision repl p h with
      | .error e => .error e
      | .ok none =>
        match sync_files rest repl s r with
        | .error e => .error e
        | .ok (r₂, lg, proc) => .ok (r₂, lg, p :: proc)
      | .ok (some op) =>
        match (if (r.lookupPath p.dropLast).isSome then Except.ok r
               else r.makedirs p.dropLast) with
        | .error e => .error e
        | .ok r₁ =>
          match s.lookupPath p with
          | some (.fileNode c) =>
            match r₁.writeFile p c with
            | .error e => .error e
            | .ok r₂ =>
              match sync_files rest repl s r₂ with
              | .error e => .error e
              | .ok (r₃, lg, proc) => .ok (r₃, ⟨op, p⟩ :: lg, p :: proc)
          | some (.dirNode _) => .error .isADirectory
          | none => .error .fileNotFound

/-- `remove_item`: for every row of the replica snapshot whose path was not
processed, remove the file (uncaught on failure) or the directory subtree
(failure caught and skipped), logging `REMOVE` after a removal; paths that
no longer exist are skipped silently. -/
def remove_item (items : List (Path × Info)) (processed : List Path) (r : FsDir) :
    Except PyErr (FsDir × List LogEntry) :=
  match items with
  | [] => .ok (r, [])
  | (p, i) :: rest =>
    if p ∈ processed then remove_item rest processed r
    else
      match i with
      | .file _ =>
        if (r.lookupPath p).isSome then
          match r.removeFile p with
          | .error e => .error e
          | .ok r₁ =>
            match remove_item rest processed r₁ with
            | .error e => .error e
            | .ok (r₂, lg) => .ok (r₂, ⟨"REMOVE", p⟩ :: lg)
        else remove_item rest processed r
      | .dir =>
        if (r.lookupPath p).isSome then
          match r.rmtree p with
          | .error _ => remove_item rest processed r
          | .ok r₁ =>
            match remove_item rest processed r₁ with
            | .error e => .error e
            | .ok (r₂, lg) => .ok (r₂, ⟨"REMOVE", p⟩ :: lg)
        else remove_item rest processed r

/-- `synchronize`: snapshot both trees, create the replica root if absent,
create missing directories, copy new and changed files, then remove
unprocessed replica entries.  The returned list is the sequence of log
records appended during the pass, in order. -/
def synchronize (source : FsDir) (replica : Option FsDir) (replica_path : Path) :
    Except PyErr (FsDir × List LogEntry) :=
  let source_contents := get_directory_contents (some source)
  let replica_contents := get_directory_contents replica
  let rp := create_replica_root replica replica_path
  match sync_directories source_contents replica_contents rp.1 with
  | .error e => .error e
  | .ok (r₁, lg₁, proc₁) =>
    match sync_files source_contents replica_contents source r₁ with
    | .error e => .error e
    | .ok (r₂, lg₂, proc₂) =>
      match remove_item replica_contents (proc₁ ++ proc₂) r₂ with
      | .error e => .error e
      | .ok (r₃, lg₃) => .ok (r₃, rp.2 ++ lg₁ ++ lg₂ ++ lg₃)

/-- The state of the JSON log file: missing, present but unparsable, or a
parsed record list. -/
inductive LogFile where
  | absent : LogFile
  | corrupt : LogFile
  | parsed : List LogEntry → LogFile
deriving DecidableEq, Repr

/-- Lines 56–63 of `log_operation`: the in-memory list recovered from the
log file — empty when the file is missing, empty again (started fresh)
when parsing raises, otherwise the parsed list. -/
def existingLogs : LogFile → List LogEntry
  | .absent => []
  | .corrupt => []
  | .parsed l => l

/-- `log_operation`: read the whole existing log, append the new record in
memory, and rewrite the whole file. -/
def log_operation (entry : LogEntry) (f : LogFile) : LogFile :=
  .parsed (existingLogs f ++ [entry])

/-! ### Auxiliary definitions used by the verification -/

/-- The snapshot row corresponding to a filesystem kind. -/
def kindInfo : EKind → Info
  | .dirK => Info.dir
  | .fileK c => Info.file (calculate_md5 c)

/-- Walk-order relation: an earlier row is never strictly below a later row
(so a parent directory's row precedes the rows of its descendants). -/
def parentRel (a b : Path) : Prop := b <+: a → a = b

/-- Is a snapshot row a directory row (`info["type"] == "dir"`)? -/
def isDirRow : Path × Info → Bool
  | (_, .dir) => true
  | (_, .file _) => false

/-- Is a snapshot row a file row (`info["type"] == "file"`)? -/
def isFileRow : Path × Info → Bool
  | (_, .dir) => false
  | (_, .file _) => true

/-- The log record that `sync_files` appends for one source row, if any. -/
def logRow (repl : List (Path × Info)) (e : Path × Info) : Option LogEntry :=
  match e.2 with
  | .dir => none
  | .file h =>
    match copyDecision repl e.1 h with
    | .ok (some op) => some ⟨op, e.1⟩
    | _ => none

/-- The log record that `sync_directories` appends for one source row, if any. -/
def createRow (repl : List (Path × Info)) (e : Path × Info) : Option LogEntry :=
  match e.2 with
  | .dir => if slookup repl e.1 = none then some ⟨"CREATE", e.1⟩ else none
  | .file _ => none

/-- A filesystem kind is what a snapshot row of that path claimed it to be. -/
def kindCompat : Option EKind → Info → Prop
  | none, _ => True
  | some .dirK, Info.dir => True
  | some (.fileK _), Info.file _ => True
  | some .dirK, Info.file _ => False
  | some (.fileK _), Info.dir => False

/-! ### Association-list lemmas -/

theorem lookupA_eq_none {β : Type} {l : List (String × β)} {n : String} :
    lookupA l n = none ↔ n ∉ l.map Prod.fst := by
  induction l with
  | nil => simp [lookupA]
  | cons e t ih =>
    by_cases h : e.1 = n
    · simp [lookupA, h]
    · simp only [lookupA, h, if_false, List.map_cons, List.mem_cons, ih]
      constructor
      · intro hn hor
        rcases hor with h1 | h2
        · exact h h1.symm
        · exact hn h2
      · intro hn h2
        exact hn (Or.inr h2)

theorem lookupA_setA {β : Type} (l : List (String × β)) (n m : String) (v : β) :
    lookupA (setA l n v) m = if n = m then some v else lookupA l m := by
  induction l with
  | nil =>
    by_cases h : n = m <;> simp [setA, lookupA, h]
  | cons e t ih =>
    by_cases he : e.1 = n
    · subst he
      by_cases h : e.1 = m <;> simp [setA, lookupA, h]
    · by_cases h : e.1 = m
      · subst h
        have hnm : ¬ n = e.1 := fun hh => he hh.symm
        simp [setA, lookupA, he, hnm]
      · simp [setA, lookupA, he, h, ih]

theorem lookupA_append_some {β : Type} {l₁ : List (String × β)} (l₂ : List (String × β))
    {n : String} {v : β} (h : lookupA l₁ n = some v) :
    lookupA (l₁ ++ l₂) n = some v := by
  induction l₁ with
  | nil => simp [lookupA] at h
  | cons e t ih =>
    by_cases he : e.1 = n
    · simp only [lookupA, he, if_true, if_pos rfl] at h
      simpa [lookupA, he] using h
    · simp only [lookupA, he, if_false] at h
      simpa [lookupA, he] using ih h

theorem lookupA_append_none {β : Type} {l₁ : List (String × β)} (l₂ : List (String × β))
    {n : String} (h : lookupA l₁ n = none) :
    lookupA (l₁ ++ l₂) n = lookupA l₂ n := by
  induction l₁ with
  | nil => simp
  | cons e t ih =>
    by_cases he : e.1 = n
    · simp [lookupA, he] at h
    · simp only [lookupA, he, if_false] at h
      simpa [lookupA, he] using ih h

theorem lookupA_removeA_ne {β : Type} {l : List (String × β)} {n m : String} (h : m ≠ n) :
    lookupA (removeA l n) m = lookupA l m := by
  induction l with
  | nil => simp [removeA]
  | cons e t ih =>
    by_cases he : e.1 = n
    · subst he
      have : ¬ e.1 = m := fun hh => h (hh.symm)
      simp [removeA, lookupA, this] at ih ⊢
      exact ih
    · by_cases hm : e.1 = m <;> simp [removeA, lookupA, he, hm, h] at ih ⊢ <;> simp [ih]

theorem removeA_keys_sublist {β : Type} (l : List (String × β)) (n : String) :
    ((removeA l n).map Prod.fst).Sublist (l.map Prod.fst) := by
  exact (List.filter_sublist l).map Prod.fst

theorem lookupA_removeA_self {β : Type} (l : List (String × β)) (n : String) :
    lookupA (removeA l n) n = none := by
  induction l with
  | nil => simp [removeA, lookupA]
  | cons e t ih =>
    by_cases he : e.1 = n <;> simp [removeA, lookupA, he] at ih ⊢ <;> simp [ih]

theorem setA_keys_of_mem {β : Type} {l : List (String × β)} {n : String} (v : β)
    (h : lookupA l n ≠ none) : (setA l n v).map Prod.fst = l.map Prod.fst := by
  induction l with
  | nil => simp [lookupA] at h
  | cons e t ih =>
    by_cases he : e.1 = n
    · simp [setA, he]
    · simp only [lookupA, he, if_false] at h
      simp [setA, he, ih h]

theorem setA_keys_of_notMem {β : Type} {l : List (String × β)} {n : String} (v : β)
    (h : lookupA l n = none) : (setA l n v).map Prod.fst = l.map Prod.fst ++ [n] := by
  induction l with
  | nil => simp [setA]
  | cons e t ih =>
    by_cases he : e.1 = n
    · simp [lookupA, he] at h
    · simp only [lookupA, he, if_false] at h
      simp [setA, he, ih h]

theorem mem_setA {β : Type} {l : List (String × β)} {n : String} {v : β} {e : String × β}
    (h : e ∈ setA l n v) : e = (n, v) ∨ e ∈ l := by
  induction l with
  | nil => simpa [setA] using h
  | cons e' t ih =>
    by_cases he : e'.1 = n
    · rcases (by simpa [setA, he] using h : e = (n, v) ∨ e ∈ t) with h | h
      · exact Or.inl h
      · exact Or.inr (List.mem_cons_of_mem _ h)
    · rcases (by simpa [setA, he] using h : e = e' ∨ e ∈ setA t n v) with h | h
      · exact Or.inr (h ▸ List.mem_cons_self _ _)
      · rcases ih h with h | h
        · exact Or.inl h
        · exact Or.inr (List.mem_cons_of_mem _ h)

theorem mem_removeA {β : Type} {l : List (String × β)} {n : String} {e : String × β}
    (h : e ∈ removeA l n) : e ∈ l :=
  List.mem_of_mem_filter h

theorem nodupB_iff {l : List String} : nodupB l = true ↔ l.Nodup := by
  induction l with
  | nil => simp [nodupB]
  | cons x t ih =>
    simp [nodupB, ih, List.elem_iff]

/-! ### `kindAt` unfolding -/

theorem kindAt_nil (d : FsDir) : d.kindAt [] = some .dirK := rfl

theorem kindAt_cons_dir {d : FsDir} {n : String} {sub : FsDir}
    (h : lookupA d.dirs n = some sub) (rest : Path) :
    d.kindAt (n :: rest) = sub.kindAt rest := by
  cases d with
  | mk ds fs => simp only [FsDir.kindAt, FsDir.lookupPath, FsDir.dirs] at h ⊢; rw [h]

theorem kindAt_cons_file_nil {d : FsDir} {n : String} {c : String}
    (hd : lookupA d.dirs n = none) (hf : lookupA d.files n = some c) :
    d.kindAt [n] = some (.fileK c) := by
  cases d with
  | mk ds fs =>
    simp only [FsDir.kindAt, FsDir.lookupPath, FsDir.dirs, FsDir.files] at hd hf ⊢
    rw [hd, hf]

theorem kindAt_cons_file_cons {d : FsDir} {n : String} {c : String}
    (hd : lookupA d.dirs n = none) (hf : lookupA d.files n = some c)
    {m : String} (rest : Path) :
    d.kindAt (n :: m :: rest) = none := by
  cases d with
  | mk ds fs =>
    simp only [FsDir.kindAt, FsDir.lookupPath, FsDir.dirs, FsDir.files] at hd hf ⊢
    rw [hd, hf]

theorem kindAt_cons_none {d : FsDir} {n : String}
    (hd : lookupA d.dirs n = none) (hf : lookupA d.files n = none) (rest : Path) :
    d.kindAt (n :: rest) = none := by
  cases d with
  | mk ds fs =>
    simp only [FsDir.kindAt, FsDir.lookupPath, FsDir.dirs, FsDir.files] at hd hf ⊢
    rw [hd, hf]

theorem kindAt_empty_cons (n : String) (rest : Path) :
    FsDir.empty.kindAt (n :: rest) = none := by
  apply kindAt_cons_none <;> rfl

/-- Two directory listings that agree on the lookups of a name resolve
paths starting with that name identically. -/
theorem kindAt_cons_congr {ds ds' : List (String × FsDir)} {fs fs' : List (String × String)}
    {m : String} (hd : lookupA ds' m = lookupA ds m) (hf : lookupA fs' m = lookupA fs m)
    (qr : Path) : (FsDir.mk ds' fs').kindAt (m :: qr) = (FsDir.mk ds fs).kindAt (m :: qr) := by
  cases hlm : lookupA ds m with
  | some s2 =>
    rw [kindAt_cons_dir (d := FsDir.mk ds' fs') (show lookupA ds' m = some s2 from hd.trans hlm) qr,
        kindAt_cons_dir (d := FsDir.mk ds fs) (show lookupA ds m = some s2 from hlm) qr]
  | none =>
    cases hfm : lookupA fs m with
    | some c =>
      cases qr with
      | nil =>
        rw [kindAt_cons_file_nil (d := FsDir.mk ds' fs')
            (show lookupA ds' m = none from hd.trans hlm) (show lookupA fs' m = _ from hf.trans hfm),
          kindAt_cons_file_nil (d := FsDir.mk ds fs) hlm hfm]
      | cons x xs =>
        rw [kindAt_cons_file_cons (d := FsDir.mk ds' fs')
            (show lookupA ds' m = none from hd.trans hlm) (show lookupA fs' m = _ from hf.trans hfm) xs,
          kindAt_cons_file_cons (d := FsDir.mk ds fs) hlm hfm xs]
    | none =>
      rw [kindAt_cons_none (d := FsDir.mk ds' fs')
          (show lookupA ds' m = none from hd.trans hlm) (show lookupA fs' m = none from hf.trans hfm) qr,
        kindAt_cons_none (d := FsDir.mk ds fs) hlm hfm qr]

/-- A path strictly below a non-directory resolves to nothing. -/
theorem kindAt_strict_of_not_dir {p : Path} {d : FsDir}
    (h : ∀ k, d.kindAt p = some k → k ≠ .dirK) {q : Path} (hpq : p <+: q) (hne : q ≠ p) :
    d.kindAt q = none := by
  induction p generalizing d q with
  | nil =>
    exact absurd rfl (h .dirK (kindAt_nil d))
  | cons n rest ih =>
    obtain ⟨r, rfl⟩ := hpq
    cases r with
    | nil => exact absurd (by simp) hne
    | cons m r' =>
      have hq : (n :: rest) ++ m :: r' = n :: (rest ++ m :: r') := by simp
      rw [hq]
      cases hl : lookupA d.dirs n with
      | some sub =>
        rw [kindAt_cons_dir hl]
        refine ih (fun k hk => h k (by rwa [kindAt_cons_dir hl])) ⟨m :: r', rfl⟩ ?_
        intro heq
        have := congrArg List.length heq
        simp at this
      | none =>
        cases hf : lookupA d.files n with
        | some c =>
          cases rest with
          | nil => exact kindAt_cons_file_cons hl hf r'
          | cons x xs =>
            have : (x :: xs) ++ m :: r' = x :: (xs ++ m :: r') := by simp
            rw [this]
            exact kindAt_cons_file_cons hl hf (xs ++ m :: r')
        | none =>
          exact kindAt_cons_none hl hf _

/-- A strict prefix of an existing path resolves to a directory. -/
theorem kindAt_prefix_dirK {d : FsDir} {p q : Path}
    (h : d.kindAt p ≠ none) (hpq : q <+: p) (hne : q ≠ p) :
    d.kindAt q = some .dirK := by
  rcases hk : d.kindAt q with _ | k
  · exact absurd (kindAt_strict_of_not_dir (fun k hk' => by rw [hk] at hk'; cases hk')
      hpq (fun hqp => hne hqp.symm)) h
  · cases k with
    | dirK => rfl
    | fileK c =>
      refine absurd (kindAt_strict_of_not_dir (fun k hk' => ?_) hpq (fun hqp => hne hqp.symm)) h
      rw [hk] at hk'
      cases hk'
      intro hdk
      cases hdk

/-! ### Frame lemmas for the filesystem operations -/

theorem makedirs_kindAt {p : Path} {d d' : FsDir} (h : d.makedirs p = .ok d') (q : Path) :
    d'.kindAt q =
      if d.kindAt q = none ∧ q ≠ [] ∧ q <+: p then some .dirK else d.kindAt q := by
  induction p generalizing d d' q with
  | nil =>
    simp only [FsDir.makedirs] at h
    cases h
    simp only [List.prefix_nil]
    have : ¬ (d.kindAt q = none ∧ q ≠ [] ∧ q = []) := by
      rintro ⟨-, h2, h3⟩
      exact h2 h3
    rw [if_neg this]
  | cons n rest ih =>
    cases d with
    | mk ds fs =>
      rcases hl : lookupA ds n with _ | sub
      · rcases hf : lookupA fs n with _ | c
        · rcases hm : FsDir.makedirs FsDir.empty rest with e | sub'
          · simp only [FsDir.makedirs, FsDir.dirs, FsDir.files, hl, hf, hm] at h
            exact Except.noConfusion h
          · simp only [FsDir.makedirs, FsDir.dirs, FsDir.files, hl, hf, hm] at h
            cases h
            cases q with
            | nil =>
              simp [kindAt_nil]
            | cons m qr =>
              by_cases hmn : n = m
              · subst hmn
                have happ : lookupA (ds ++ [(n, sub')]) n = some sub' := by
                  rw [lookupA_append_none _ hl]
                  simp [lookupA]
                rw [kindAt_cons_dir (d := FsDir.mk (ds ++ [(n, sub')]) fs)
                  (show lookupA (ds ++ [(n, sub')]) n = some sub' from happ) qr]
                rw [kindAt_cons_none (d := FsDir.mk ds fs) hl hf qr]
                rw [ih hm qr]
                rcases qr with _ | ⟨x, xs⟩
                · simp [kindAt_nil]
                · simp [kindAt_empty_cons, List.cons_prefix_cons]
              · have happ : lookupA (ds ++ [(n, sub')]) m = lookupA ds m := by
                  cases hlm : lookupA ds m with
                  | some s2 => exact lookupA_append_some _ hlm
                  | none =>
                    rw [lookupA_append_none _ hlm]
                    simp [lookupA, hmn]
                rw [kindAt_cons_congr happ rfl qr]
                have hnp : ¬ (m :: qr <+: n :: rest) := by
                  rw [List.cons_prefix_cons]
                  rintro ⟨h1, -⟩
                  exact hmn h1.symm
                simp [hnp]
        · simp only [FsDir.makedirs, FsDir.dirs, FsDir.files, hl, hf] at h
          exact Except.noConfusion h
      · rcases hm : FsDir.makedirs sub rest with e | sub'
        · simp only [FsDir.makedirs, FsDir.dirs, FsDir.files, hl, hm] at h
          exact Except.noConfusion h
        · simp only [FsDir.makedirs, FsDir.dirs, FsDir.files, hl, hm] at h
          cases h
          cases q with
          | nil =>
            simp [kindAt_nil]
          | cons m qr =>
            by_cases hmn : n = m
            · subst hmn
              have hset : lookupA (setA ds n sub') n = some sub' := by
                rw [lookupA_setA]; simp
              rw [kindAt_cons_dir (d := FsDir.mk (setA ds n sub') fs)
                (show lookupA (setA ds n sub') n = some sub' from hset) qr]
              rw [kindAt_cons_dir (d := FsDir.mk ds fs) hl qr]
              rw [ih hm qr]
              rcases qr with _ | ⟨x, xs⟩
              · simp [kindAt_nil]
              · simp [List.cons_prefix_cons]
            · have hset : lookupA (setA ds n sub') m = lookupA ds m := by
                rw [lookupA_setA]; simp [hmn]
              rw [kindAt_cons_congr hset rfl qr]
              have hnp : ¬ (m :: qr <+: n :: rest) := by
                rw [List.cons_prefix_cons]
                rintro ⟨h1, -⟩
                exact hmn h1.symm
              simp [hnp]

theorem lookupA_mem_of_some {β : Type} {l : List (String × β)} {n : String} {v : β}
    (h : lookupA l n = some v) : (n, v) ∈ l ∧ n ∈ l.map Prod.fst := by
  induction l with
  | nil => simp [lookupA] at h
  | cons e t ih =>
    by_cases he : e.1 = n
    · subst he
      have h2 : e.2 = v := by simpa [lookupA] using h
      subst h2
      exact ⟨by simp, by simp⟩
    · simp only [lookupA, he, if_false] at h
      rcases ih h with ⟨h1, h2⟩
      exact ⟨List.mem_cons_of_mem _ h1, by simp [h2]⟩

theorem wfKids_iff {l : List (String × FsDir)} :
    wfKids l = true ↔ ∀ e ∈ l, FsDir.wfB e.2 = true := by
  induction l with
  | nil => simp [wfKids]
  | cons e t ih =>
    cases e with
    | mk n sub => simp [wfKids, ih]

theorem wfB_mk_iff {ds : List (String × FsDir)} {fs : List (String × String)} :
    (FsDir.mk ds fs).wfB = true ↔
      ((ds.map Prod.fst ++ fs.map Prod.fst).Nodup ∧ ∀ e ∈ ds, e.2.wfB = true) := by
  simp [FsDir.wfB, nodupB_iff, wfKids_iff, Bool.and_eq_true]

theorem wf_files_none_of_dirs_some {ds : List (String × FsDir)} {fs : List (String × String)}
    (hnd : (ds.map Prod.fst ++ fs.map Prod.fst).Nodup) {n : String} {sub : FsDir}
    (h : lookupA ds n = some sub) : lookupA fs n = none := by
  rw [lookupA_eq_none]
  exact (List.disjoint_of_nodup_append hnd) (lookupA_mem_of_some h).2

theorem writeFile_kindAt {p : Path} {c : String} {d d' : FsDir}
    (h : d.writeFile p c = .ok d') :
    d'.kindAt p = some (.fileK c) ∧ ∀ q, q ≠ p → d'.kindAt q = d.kindAt q := by
  induction p generalizing d d' with
  | nil => simp [FsDir.writeFile] at h
  | cons n rest ih =>
    cases d with
    | mk ds fs =>
      cases rest with
      | nil =>
        rcases hl : lookupA ds n with _ | sub
        · simp only [FsDir.writeFile, FsDir.dirs, FsDir.files, hl] at h
          cases h
          refine ⟨kindAt_cons_file_nil (d := FsDir.mk ds (setA fs n c)) hl
            (show lookupA (setA fs n c) n = some c by rw [lookupA_setA]; simp), ?_⟩
          intro q hq
          cases q with
          | nil => simp [kindAt_nil]
          | cons m qr =>
            by_cases hmn : n = m
            · subst hmn
              cases qr with
              | nil => exact absurd rfl hq
              | cons x xs =>
                rw [kindAt_cons_file_cons (d := FsDir.mk ds (setA fs n c)) hl
                  (show lookupA (setA fs n c) n = some c by rw [lookupA_setA]; simp) xs]
                rcases hf : lookupA fs n with _ | c₂
                · rw [kindAt_cons_none (d := FsDir.mk ds fs) hl hf]
                · rw [kindAt_cons_file_cons (d := FsDir.mk ds fs) hl hf xs]
            · exact kindAt_cons_congr rfl (by rw [lookupA_setA]; simp [hmn]) qr
        · simp only [FsDir.writeFile, FsDir.dirs, FsDir.files, hl] at h
          exact Except.noConfusion h
      | cons x xs =>
        rcases hl : lookupA ds n with _ | sub
        · rcases hf : lookupA fs n with _ | c₂
          · simp only [FsDir.writeFile, FsDir.dirs, FsDir.files, hl, hf] at h
            exact Except.noConfusion h
          · simp only [FsDir.writeFile, FsDir.dirs, FsDir.files, hl, hf] at h
            exact Except.noConfusion h
        · rcases hw : FsDir.writeFile sub (x :: xs) c with e | sub'
          · simp only [FsDir.writeFile, FsDir.dirs, FsDir.files, hl, hw] at h
            exact Except.noConfusion h
          · simp only [FsDir.writeFile, FsDir.dirs, FsDir.files, hl, hw] at h
            cases h
            have hset : lookupA (setA ds n sub') n = some sub' := by
              rw [lookupA_setA]; simp
            constructor
            · rw [kindAt_cons_dir (d := FsDir.mk (setA ds n sub') fs) hset (x :: xs)]
              exact (ih hw).1
            · intro q hq
              cases q with
              | nil => simp [kindAt_nil]
              | cons m qr =>
                by_cases hmn : n = m
                · subst hmn
                  rw [kindAt_cons_dir (d := FsDir.mk (setA ds n sub') fs) hset qr,
                      kindAt_cons_dir (d := FsDir.mk ds fs) hl qr]
                  exact (ih hw).2 qr (fun heq => hq (by rw [heq]))
                · exact kindAt_cons_congr (by rw [lookupA_setA]; simp [hmn]) rfl qr

theorem removeFile_kindAt {p : Path} {d d' : FsDir} (h : d.removeFile p = .ok d') :
    (∀ q, p <+: q → d'.kindAt q = none) ∧ ∀ q, ¬ p <+: q → d'.kindAt q = d.kindAt q := by
  induction p generalizing d d' with
  | nil => simp [FsDir.removeFile] at h
  | cons n rest ih =>
    cases d with
    | mk ds fs =>
      cases rest with
      | nil =>
        rcases hl : lookupA ds n with _ | sub
        · rcases hf : lookupA fs n with _ | c
          · simp only [FsDir.removeFile, FsDir.dirs, FsDir.files, hl, hf] at h
            exact Except.noConfusion h
          · simp only [FsDir.removeFile, FsDir.dirs, FsDir.files, hl, hf] at h
            cases h
            constructor
            · intro q hpq
              obtain ⟨r, rfl⟩ := hpq
              exact kindAt_cons_none (d := FsDir.mk ds (removeA fs n)) hl
                (lookupA_removeA_self fs n) r
            · intro q hq
              cases q with
              | nil => simp [kindAt_nil]
              | cons m qr =>
                have hmn : m ≠ n := by
                  intro heq
                  subst heq
                  exact hq ⟨qr, rfl⟩
                exact kindAt_cons_congr rfl (lookupA_removeA_ne hmn) qr
        · simp only [FsDir.removeFile, FsDir.dirs, FsDir.files, hl] at h
          exact Except.noConfusion h
      | cons x xs =>
        rcases hl : lookupA ds n with _ | sub
        · simp only [FsDir.removeFile, FsDir.dirs, FsDir.files, hl] at h
          exact Except.noConfusion h
        · rcases hw : FsDir.removeFile sub (x :: xs) with e | sub'
          · simp only [FsDir.removeFile, FsDir.dirs, FsDir.files, hl, hw] at h
            exact Except.noConfusion h
          · simp only [FsDir.removeFile, FsDir.dirs, FsDir.files, hl, hw] at h
            cases h
            have hset : lookupA (setA ds n sub') n = some sub' := by
              rw [lookupA_setA]; simp
            constructor
            · intro q hpq
              obtain ⟨r, rfl⟩ := hpq
              rw [show ((n :: x :: xs : Path) ++ r) = n :: ((x :: xs) ++ r) from rfl]
              rw [kindAt_cons_dir (d := FsDir.mk (setA ds n sub') fs) hset _]
              exact (ih hw).1 _ ⟨r, rfl⟩
            · intro q hq
              cases q with
              | nil => simp [kindAt_nil]
              | cons m qr =>
                by_cases hmn : n = m
                · subst hmn
                  rw [kindAt_cons_dir (d := FsDir.mk (setA ds n sub') fs) hset qr,
                      kindAt_cons_dir (d := FsDir.mk ds fs) hl qr]
                  refine (ih hw).2 qr (fun hpre => hq ?_)
                  rw [List.cons_prefix_cons]
                  exact ⟨rfl, hpre⟩
                · exact kindAt_cons_congr (by rw [lookupA_setA]; simp [hmn]) rfl qr

theorem rmtree_kindAt {p : Path} {d d' : FsDir} (hwf : d.wfB = true)
    (h : d.rmtree p = .ok d') :
    (∀ q, p <+: q → d'.kindAt q = none) ∧ ∀ q, ¬ p <+: q → d'.kindAt q = d.kindAt q := by
  induction p generalizing d d' with
  | nil => simp [FsDir.rmtree] at h
  | cons n rest ih =>
    cases d with
    | mk ds fs =>
      cases rest with
      | nil =>
        rcases hl : lookupA ds n with _ | sub
        · simp only [FsDir.rmtree, FsDir.dirs, FsDir.files, hl] at h
          exact Except.noConfusion h
        · simp only [FsDir.rmtree, FsDir.dirs, FsDir.files, hl] at h
          cases h
          have hfn : lookupA fs n = none :=
            wf_files_none_of_dirs_some (wfB_mk_iff.1 hwf).1 hl
          constructor
          · intro q hpq
            obtain ⟨r, rfl⟩ := hpq
            exact kindAt_cons_none (d := FsDir.mk (removeA ds n) fs)
              (lookupA_removeA_self ds n) hfn r
          · intro q hq
            cases q with
            | nil => simp [kindAt_nil]
            | cons m qr =>
              have hmn : m ≠ n := by
                intro heq
                subst heq
                exact hq ⟨qr, rfl⟩
              exact kindAt_cons_congr (lookupA_removeA_ne hmn) rfl qr
      | cons x xs =>
        rcases hl : lookupA ds n with _ | sub
        · simp only [FsDir.rmtree, FsDir.dirs, FsDir.files, hl] at h
          exact Except.noConfusion h
        · rcases hw : FsDir.rmtree sub (x :: xs) with e | sub'
          · simp only [FsDir.rmtree, FsDir.dirs, FsDir.files, hl, hw] at h
            exact Except.noConfusion h
          · simp only [FsDir.rmtree, FsDir.dirs, FsDir.files, hl, hw] at h
            cases h
            have hwfsub : sub.wfB = true :=
              (wfB_mk_iff.1 hwf).2 _ (lookupA_mem_of_some hl).1
            have hset : lookupA (setA ds n sub') n = some sub' := by
              rw [lookupA_setA]; simp
            constructor
            · intro q hpq
              obtain ⟨r, rfl⟩ := hpq
              rw [show ((n :: x :: xs : Path) ++ r) = n :: ((x :: xs) ++ r) from rfl]
              rw [kindAt_cons_dir (d := FsDir.mk (setA ds n sub') fs) hset _]
              exact (ih hwfsub hw).1 _ ⟨r, rfl⟩
            · intro q hq
              cases q with
              | nil => simp [kindAt_nil]
              | cons m qr =>
                by_cases hmn : n = m
                · subst hmn
                  rw [kindAt_cons_dir (d := FsDir.mk (setA ds n sub') fs) hset qr,
                      kindAt_cons_dir (d := FsDir.mk ds fs) hl qr]
                  refine (ih hwfsub hw).2 qr (fun hpre => hq ?_)
                  rw [List.cons_prefix_cons]
                  exact ⟨rfl, hpre⟩
                · exact kindAt_cons_congr (by rw [lookupA_setA]; simp [hmn]) rfl qr

theorem rmtree_ok_of_dirK {rest : Path} {n : String} {d : FsDir}
    (h : d.kindAt (n :: rest) = some .dirK) : ∃ d', d.rmtree (n :: rest) = .ok d' := by
  induction rest generalizing n d with
  | nil =>
    cases d with
    | mk ds fs =>
      rcases hl : lookupA ds n with _ | sub
      · exfalso
        rcases hf : lookupA fs n with _ | c
        · rw [kindAt_cons_none (d := FsDir.mk ds fs) hl hf] at h
          cases h
        · rw [kindAt_cons_file_nil (d := FsDir.mk ds fs) hl hf] at h
          simp at h
      · exact ⟨FsDir.mk (removeA ds n) fs,
          by simp only [FsDir.rmtree, FsDir.dirs, FsDir.files, hl]⟩
  | cons x xs ih =>
    cases d with
    | mk ds fs =>
      rcases hl : lookupA ds n with _ | sub
      · exfalso
        rcases hf : lookupA fs n with _ | c
        · rw [kindAt_cons_none (d := FsDir.mk ds fs) hl hf] at h
          cases h
        · rw [kindAt_cons_file_cons (d := FsDir.mk ds fs) hl hf xs] at h
          cases h
      · rw [kindAt_cons_dir (d := FsDir.mk ds fs) hl] at h
        obtain ⟨sub', hs⟩ := ih h
        exact ⟨FsDir.mk (setA ds n sub') fs,
          by simp only [FsDir.rmtree, FsDir.dirs, FsDir.files, hl, hs]⟩

theorem rmtree_error_of_fileK {rest : Path} {n : String} {d : FsDir} {c : String}
    (h : d.kindAt (n :: rest) = some (.fileK c)) : ∃ e, d.rmtree (n :: rest) = .error e := by
  induction rest generalizing n d with
  | nil =>
    cases d with
    | mk ds fs =>
      rcases hl : lookupA ds n with _ | sub
      · exact ⟨PyErr.notADirectory, by simp only [FsDir.rmtree, FsDir.dirs, hl]⟩
      · exfalso
        rw [kindAt_cons_dir (d := FsDir.mk ds fs) hl] at h
        rw [kindAt_nil] at h
        simp at h
  | cons x xs ih =>
    cases d with
    | mk ds fs =>
      rcases hl : lookupA ds n with _ | sub
      · exact ⟨PyErr.notADirectory, by simp only [FsDir.rmtree, FsDir.dirs, hl]⟩
      · rw [kindAt_cons_dir (d := FsDir.mk ds fs) hl] at h
        obtain ⟨e, hs⟩ := ih h
        exact ⟨e, by simp only [FsDir.rmtree, FsDir.dirs, hl, hs]⟩

theorem removeFile_ok_of_fileK {rest : Path} {n : String} {d : FsDir} {c : String}
    (h : d.kindAt (n :: rest) = some (.fileK c)) : ∃ d', d.removeFile (n :: rest) = .ok d' := by
  induction rest generalizing n d with
  | nil =>
    cases d with
    | mk ds fs =>
      rcases hl : lookupA ds n with _ | sub
      · rcases hf : lookupA fs n with _ | c₂
        · rw [kindAt_cons_none (d := FsDir.mk ds fs) hl hf] at h
          cases h
        · exact ⟨FsDir.mk ds (removeA fs n),
            by simp only [FsDir.removeFile, FsDir.dirs, FsDir.files, hl, hf]⟩
      · exfalso
        rw [kindAt_cons_dir (d := FsDir.mk ds fs) hl, kindAt_nil] at h
        simp at h
  | cons x xs ih =>
    cases d with
    | mk ds fs =>
      rcases hl : lookupA ds n with _ | sub
      · exfalso
        rcases hf : lookupA fs n with _ | c₂
        · rw [kindAt_cons_none (d := FsDir.mk ds fs) hl hf] at h
          cases h
        · rw [kindAt_cons_file_cons (d := FsDir.mk ds fs) hl hf xs] at h
          cases h
      · rw [kindAt_cons_dir (d := FsDir.mk ds fs) hl] at h
        obtain ⟨sub', hs⟩ := ih h
        exact ⟨FsDir.mk (setA ds n sub') fs,
          by simp only [FsDir.removeFile, FsDir.dirs, FsDir.files, hl, hs]⟩

theorem wfB_empty : FsDir.empty.wfB = true := rfl

theorem makedirs_wf {p : Path} {d d' : FsDir} (hwf : d.wfB = true)
    (h : d.makedirs p = .ok d') : d'.wfB = true := by
  induction p generalizing d d' with
  | nil =>
    simp only [FsDir.makedirs] at h
    cases h
    exact hwf
  | cons n rest ih =>
    cases d with
    | mk ds fs =>
      rcases hl : lookupA ds n with _ | sub
      · rcases hf : lookupA fs n with _ | c
        · rcases hm : FsDir.makedirs FsDir.empty rest with e | sub'
          · simp only [FsDir.makedirs, FsDir.dirs, FsDir.files, hl, hf, hm] at h
            exact Except.noConfusion h
          · simp only [FsDir.makedirs, FsDir.dirs, FsDir.files, hl, hf, hm] at h
            cases h
            rcases wfB_mk_iff.1 hwf with ⟨hnd, hkids⟩
            rw [wfB_mk_iff]
            constructor
            · rw [List.map_append]
              have : (ds.map Prod.fst ++ [(n, sub')].map Prod.fst) ++ fs.map Prod.fst =
                  ds.map Prod.fst ++ n :: fs.map Prod.fst := by
                simp
              rw [this, List.nodup_middle, List.nodup_cons]
              refine ⟨?_, hnd⟩
              intro hmem
              rcases List.mem_append.1 hmem with hmem | hmem
              · exact absurd hmem (lookupA_eq_none.1 hl)
              · exact absurd hmem (lookupA_eq_none.1 hf)
            · intro e he
              rcases List.mem_append.1 he with he | he
              · exact hkids e he
              · have : e = (n, sub') := by simpa using he
                subst this
                exact ih wfB_empty hm
        · simp only [FsDir.makedirs, FsDir.dirs, FsDir.files, hl, hf] at h
          exact Except.noConfusion h
      · rcases hm : FsDir.makedirs sub rest with e | sub'
        · simp only [FsDir.makedirs, FsDir.dirs, FsDir.files, hl, hm] at h
          exact Except.noConfusion h
        · simp only [FsDir.makedirs, FsDir.dirs, FsDir.files, hl, hm] at h
          cases h
          rcases wfB_mk_iff.1 hwf with ⟨hnd, hkids⟩
          rw [wfB_mk_iff]
          constructor
          · rwa [setA_keys_of_mem _ (by rw [hl]; exact fun hh => Option.noConfusion hh)]
          · intro e he
            rcases mem_setA he with he | he
            · subst he
              exact ih (hkids _ (lookupA_mem_of_some hl).1) hm
            · exact hkids e he

theorem writeFile_wf {p : Path} {c : String} {d d' : FsDir} (hwf : d.wfB = true)
    (h : d.writeFile p c = .ok d') : d'.wfB = true := by
  induction p generalizing d d' with
  | nil => simp [FsDir.writeFile] at h
  | cons n rest ih =>
    cases d with
    | mk ds fs =>
      cases rest with
      | nil =>
        rcases hl : lookupA ds n with _ | sub
        · simp only [FsDir.writeFile, FsDir.dirs, FsDir.files, hl] at h
          cases h
          rcases wfB_mk_iff.1 hwf with ⟨hnd, hkids⟩
          rw [wfB_mk_iff]
          refine ⟨?_, hkids⟩
          rcases hf : lookupA fs n with _ | c₂
          · rw [setA_keys_of_notMem _ hf, ← List.append_assoc]
            rw [List.nodup_append]
            refine ⟨hnd, by simp, ?_⟩
            intro x hx
            simp only [List.mem_singleton]
            intro hxn
            subst hxn
            rcases List.mem_append.1 hx with hx | hx
            · exact absurd hx (lookupA_eq_none.1 hl)
            · exact absurd hx (lookupA_eq_none.1 hf)
          · rwa [setA_keys_of_mem _ (by rw [hf]; exact fun hh => Option.noConfusion hh)]
        · simp only [FsDir.writeFile, FsDir.dirs, FsDir.files, hl] at h
          exact Except.noConfusion h
      | cons x xs =>
        rcases hl : lookupA ds n with _ | sub
        · rcases hf : lookupA fs n with _ | c₂ <;>
            simp only [FsDir.writeFile, FsDir.dirs, FsDir.files, hl, hf] at h <;>
            exact Except.noConfusion h
        · rcases hw : FsDir.writeFile sub (x :: xs) c with e | sub'
          · simp only [FsDir.writeFile, FsDir.dirs, FsDir.files, hl, hw] at h
            exact Except.noConfusion h
          · simp only [FsDir.writeFile, FsDir.dirs, FsDir.files, hl, hw] at h
            cases h
            rcases wfB_mk_iff.1 hwf with ⟨hnd, hkids⟩
            rw [wfB_mk_iff]
            constructor
            · rwa [setA_keys_of_mem _ (by rw [hl]; exact fun hh => Option.noConfusion hh)]
            · intro e he
              rcases mem_setA he with he | he
              · subst he
                exact ih (hkids _ (lookupA_mem_of_some hl).1) hw
              · exact hkids e he

theorem removeFile_wf {p : Path} {d d' : FsDir} (hwf : d.wfB = true)
    (h : d.removeFile p = .ok d') : d'.wfB = true := by
  induction p generalizing d d' with
  | nil => simp [FsDir.removeFile] at h
  | cons n rest ih =>
    cases d with
    | mk ds fs =>
      cases rest with
      | nil =>
        rcases hl : lookupA ds n with _ | sub
        · rcases hf : lookupA fs n with _ | c
          · simp only [FsDir.removeFile, FsDir.dirs, FsDir.files, hl, hf] at h
            exact Except.noConfusion h
          · simp only [FsDir.removeFile, FsDir.dirs, FsDir.files, hl, hf] at h
            cases h
            rcases wfB_mk_iff.1 hwf with ⟨hnd, hkids⟩
            rw [wfB_mk_iff]
            refine ⟨?_, hkids⟩
            exact hnd.sublist (((removeA_keys_sublist fs n).append_left _))
        · simp only [FsDir.removeFile, FsDir.dirs, FsDir.files, hl] at h
          exact Except.noConfusion h
      | cons x xs =>
        rcases hl : lookupA ds n with _ | sub
        · simp only [FsDir.removeFile, FsDir.dirs, FsDir.files, hl] at h
          exact Except.noConfusion h
        · rcases hw : FsDir.removeFile sub (x :: xs) with e | sub'
          · simp only [FsDir.removeFile, FsDir.dirs, FsDir.files, hl, hw] at h
            exact Except.noConfusion h
          · simp only [FsDir.removeFile, FsDir.dirs, FsDir.files, hl, hw] at h
            cases h
            rcases wfB_mk_iff.1 hwf with ⟨hnd, hkids⟩
            rw [wfB_mk_iff]
            constructor
            · rwa [setA_keys_of_mem _ (by rw [hl]; exact fun hh => Option.noConfusion hh)]
            · intro e he
              rcases mem_setA he with he | he
              · subst he
                exact ih (hkids _ (lookupA_mem_of_some hl).1) hw
              · exact hkids e he

theorem rmtree_wf {p : Path} {d d' : FsDir} (hwf : d.wfB = true)
    (h : d.rmtree p = .ok d') : d'.wfB = true := by
  induction p generalizing d d' with
  | nil => simp [FsDir.rmtree] at h
  | cons n rest ih =>
    cases d with
    | mk ds fs =>
      cases rest with
      | nil =>
        rcases hl : lookupA ds n with _ | sub
        · simp only [FsDir.rmtree, FsDir.dirs, FsDir.files, hl] at h
          exact Except.noConfusion h
        · simp only [FsDir.rmtree, FsDir.dirs, FsDir.files, hl] at h
          cases h
          rcases wfB_mk_iff.1 hwf with ⟨hnd, hkids⟩
          rw [wfB_mk_iff]
          constructor
          · exact hnd.sublist ((removeA_keys_sublist ds n).append (List.Sublist.refl _))
          · intro e he
            exact hkids e (mem_removeA he)
      | cons x xs =>
        rcases hl : lookupA ds n with _ | sub
        · simp only [FsDir.rmtree, FsDir.dirs, FsDir.files, hl] at h
          exact Except.noConfusion h
        · rcases hw : FsDir.rmtree sub (x :: xs) with e | sub'
          · simp only [FsDir.rmtree, FsDir.dirs, FsDir.files, hl, hw] at h
            exact Except.noConfusion h
          · simp only [FsDir.rmtree, FsDir.dirs, FsDir.files, hl, hw] at h
            cases h
            rcases wfB_mk_iff.1 hwf with ⟨hnd, hkids⟩
            rw [wfB_mk_iff]
            constructor
            · rwa [setA_keys_of_mem _ (by rw [hl]; exact fun hh => Option.noConfusion hh)]
            · intro e he
              rcases mem_setA he with he | he
              · subst he
                exact ih (hkids _ (lookupA_mem_of_some hl).1) hw
              · exact hkids e he

/-! ### Snapshot (walk) lemmas -/

/-- Induction over the nested tree structure of `FsDir`. -/
theorem FsDir.induct (P : FsDir → Prop)
    (step : ∀ ds fs, (∀ e ∈ ds, P e.2) → P (FsDir.mk ds fs)) : ∀ d, P d
  | .mk ds fs => step ds fs (fun e he => FsDir.induct P step e.2)
termination_by d => sizeOf d
decreasing_by
  have h1 := List.sizeOf_lt_of_mem he
  cases e
  simp at h1 ⊢
  omega

theorem mem_walkKids {ds : List (String × FsDir)} {e : Path × Info} :
    e ∈ walkKids ds ↔
      ∃ n sub q, (n, sub) ∈ ds ∧ q ∈ walkList sub ∧ e = (n :: q.1, q.2) := by
  induction ds with
  | nil => simp [walkKids]
  | cons hd t ih =>
    cases hd with
    | mk n sub =>
      simp only [walkKids, List.mem_append, List.mem_map, ih]
      constructor
      · rintro (⟨q, hq, rfl⟩ | ⟨n', sub', q, hmem, hq, rfl⟩)
        · exact ⟨n, sub, q, by simp, hq, rfl⟩
        · exact ⟨n', sub', q, List.mem_cons_of_mem _ hmem, hq, rfl⟩
      · rintro ⟨n', sub', q, hmem, hq, rfl⟩
        rcases List.mem_cons.1 hmem with heq | hmem
        · cases heq
          exact Or.inl ⟨q, hq, rfl⟩
        · exact Or.inr ⟨n', sub', q, hmem, hq, rfl⟩

theorem walkList_path_ne_nil {d : FsDir} :
    ∀ e ∈ walkList d, e.1 ≠ [] := by
  induction d using FsDir.induct with
  | step ds fs ih =>
    intro e he
    rw [walkList] at he
    rcases List.mem_append.1 he with he | he
    · rcases List.mem_append.1 he with he | he
      · obtain ⟨x, -, rfl⟩ := List.mem_map.1 he
        simp
      · obtain ⟨x, -, rfl⟩ := List.mem_map.1 he
        simp
    · obtain ⟨n, sub, q, -, -, rfl⟩ := mem_walkKids.1 he
      simp

theorem slookup_append_some {l₁ l₂ : List (Path × Info)} {p : Path} {i : Info}
    (h : slookup l₁ p = some i) : slookup (l₁ ++ l₂) p = some i := by
  induction l₁ with
  | nil => simp [slookup] at h
  | cons e t ih =>
    by_cases he : e.1 = p
    · simpa [slookup, he] using (by simpa [slookup, he] using h : some e.2 = some i)
    · simp only [slookup, he, if_false] at h
      simpa [slookup, he] using ih h

theorem slookup_append_none {l₁ : List (Path × Info)} (l₂ : List (Path × Info)) {p : Path}
    (h : slookup l₁ p = none) : slookup (l₁ ++ l₂) p = slookup l₂ p := by
  induction l₁ with
  | nil => simp
  | cons e t ih =>
    by_cases he : e.1 = p
    · simp [slookup, he] at h
    · simp only [slookup, he, if_false] at h
      simpa [slookup, he] using ih h

theorem slookup_eq_none {l : List (Path × Info)} {p : Path} :
    slookup l p = none ↔ p ∉ l.map Prod.fst := by
  induction l with
  | nil => simp [slookup]
  | cons e t ih =>
    by_cases he : e.1 = p
    · simp [slookup, he]
    · simp only [slookup, he, if_false, List.map_cons, List.mem_cons, ih]
      constructor
      · intro hn hor
        rcases hor with h1 | h2
        · exact he h1.symm
        · exact hn h2
      · intro hn h2
        exact hn (Or.inr h2)

theorem mem_of_slookup {l : List (Path × Info)} {p : Path} {i : Info}
    (h : slookup l p = some i) : (p, i) ∈ l := by
  induction l with
  | nil => simp [slookup] at h
  | cons e t ih =>
    by_cases he : e.1 = p
    · have h2 : e.2 = i := by simpa [slookup, he] using h
      subst h2
      subst he
      simp
    · simp only [slookup, he, if_false] at h
      exact List.mem_cons_of_mem _ (ih h)

theorem slookup_of_mem {l : List (Path × Info)} (hnd : (l.map Prod.fst).Nodup)
    {p : Path} {i : Info} (h : (p, i) ∈ l) : slookup l p = some i := by
  induction l with
  | nil => simp at h
  | cons e t ih =>
    simp only [List.map_cons, List.nodup_cons] at hnd
    rcases List.mem_cons.1 h with heq | hmem
    · subst heq
      simp [slookup]
    · have hne : e.1 ≠ p := by
        intro heq
        exact hnd.1 (heq ▸ (List.mem_map.2 ⟨(p, i), hmem, rfl⟩))
      simp only [slookup, hne, if_false]
      exact ih hnd.2 hmem

/-- `slookup` through the path-prefixing of a subdirectory's walk rows. -/
theorem slookup_map_cons (l : List (Path × Info)) (n m : String) (qr : Path) :
    slookup (l.map (fun q => (n :: q.1, q.2))) (m :: qr) =
      if n = m then slookup l qr else none := by
  induction l with
  | nil => simp [slookup]
  | cons e t ih =>
    by_cases hnm : n = m
    · subst hnm
      by_cases he : e.1 = qr
      · simp [slookup, he]
      · simpa [slookup, he] using ih
    · have : ¬ (n :: e.1 = m :: qr) := by
        intro hh
        exact hnm (by injection hh)
      simp only [List.map_cons, slookup, this, if_false, if_neg hnm]
      simpa [if_neg hnm] using ih

theorem slookup_map_cons_nil {l : List (Path × Info)} (n : String) :
    slookup (l.map (fun q => (n :: q.1, q.2))) [] = none := by
  induction l with
  | nil => simp [slookup]
  | cons e t ih => simpa [slookup] using ih

theorem slookup_walkKids_none {ds : List (String × FsDir)} {n : String}
    (hl : lookupA ds n = none) (qr : Path) :
    slookup (walkKids ds) (n :: qr) = none := by
  induction ds with
  | nil => simp [walkKids, slookup]
  | cons hd t ih =>
    cases hd with
    | mk m sub =>
      have hmn : ¬ m = n := by
        intro hh
        simp [lookupA, hh] at hl
      simp only [lookupA, hmn, if_false] at hl
      simp only [walkKids]
      rw [slookup_append_none _ (by rw [slookup_map_cons (walkList sub) m n qr]; simp [hmn])]
      exact ih hl

theorem slookup_walkKids_some {ds : List (String × FsDir)}
    (hnd : (ds.map Prod.fst).Nodup) {n : String} {sub : FsDir}
    (hl : lookupA ds n = some sub) (qr : Path) :
    slookup (walkKids ds) (n :: qr) = slookup (walkList sub) qr := by
  induction ds with
  | nil => simp [lookupA] at hl
  | cons hd t ih =>
    cases hd with
    | mk m sub₂ =>
      simp only [List.map_cons, List.nodup_cons] at hnd
      by_cases hmn : m = n
      · subst hmn
        have hsub : sub₂ = sub := by simpa [lookupA] using hl
        subst hsub
        simp only [walkKids]
        cases hs : slookup (walkList sub₂) qr with
        | some i =>
          exact slookup_append_some (by rw [slookup_map_cons (walkList sub₂) m m qr]; simp [hs])
        | none =>
          rw [slookup_append_none _ (by rw [slookup_map_cons (walkList sub₂) m m qr]; simp [hs])]
          exact slookup_walkKids_none (lookupA_eq_none.2 hnd.1) qr
      · simp only [lookupA, hmn, if_false] at hl
        simp only [walkKids]
        rw [slookup_append_none _ (by rw [slookup_map_cons (walkList sub₂) m n qr]; simp [hmn])]
        exact ih hnd.2 hl

theorem slookup_mapDirs (ds : List (String × FsDir)) (n : String) :
    slookup (ds.map (fun e => ([e.1], Info.dir))) [n] =
      (lookupA ds n).map (fun _ => Info.dir) := by
  induction ds with
  | nil => simp [slookup, lookupA]
  | cons e t ih =>
    by_cases he : e.1 = n
    · simp [slookup, lookupA, he]
    · have : ¬ ([e.1] = [n] : Prop) := by
        intro hh
        exact he (by injection hh)
      simp only [List.map_cons, slookup, lookupA, this, if_false, he]
      exact ih

theorem slookup_mapFiles (fs : List (String × String)) (n : String) :
    slookup (fs.map (fun e => ([e.1], Info.file (calculate_md5 e.2)))) [n] =
      (lookupA fs n).map (fun c => Info.file (calculate_md5 c)) := by
  induction fs with
  | nil => simp [slookup, lookupA]
  | cons e t ih =>
    by_cases he : e.1 = n
    · simp [slookup, lookupA, he]
    · have : ¬ ([e.1] = [n] : Prop) := by
        intro hh
        exact he (by injection hh)
      simp only [List.map_cons, slookup, lookupA, this, if_false, he]
      exact ih

theorem slookup_mapDirs_cons2 (ds : List (String × FsDir)) (n m : String) (qr : Path) :
    slookup (ds.map (fun e => ([e.1], Info.dir))) (n :: m :: qr) = none := by
  induction ds with
  | nil => simp [slookup]
  | cons e t ih => simpa [slookup] using ih

theorem slookup_mapFiles_cons2 (fs : List (String × String)) (n m : String) (qr : Path) :
    slookup (fs.map (fun e => ([e.1], Info.file (calculate_md5 e.2)))) (n :: m :: qr) = none := by
  induction fs with
  | nil => simp [slookup]
  | cons e t ih => simpa [slookup] using ih

/-- The content of a snapshot as a map: looking up a non-root relative path
in the walk of a well-formed tree yields exactly the kind the filesystem has
at that path. -/
theorem slookup_walkList {d : FsDir} (hwf : d.wfB = true) {p : Path} (hp : p ≠ []) :
    slookup (walkList d) p = (d.kindAt p).map kindInfo := by
  induction d using FsDir.induct generalizing p with
  | step ds fs ih =>
    rcases wfB_mk_iff.1 hwf with ⟨hnd, hkids⟩
    have hndd : (ds.map Prod.fst).Nodup := (List.nodup_append.1 hnd).1
    cases p with
    | nil => exact absurd rfl hp
    | cons n qr =>
      rw [walkList]
      cases qr with
      | nil =>
        rcases hl : lookupA ds n with _ | sub
        · have hA : slookup (ds.map (fun e => ([e.1], Info.dir))) [n] = none := by
            rw [slookup_mapDirs, hl]; rfl
          rcases hf : lookupA fs n with _ | c
          · have hAB : slookup (ds.map (fun e => ([e.1], Info.dir))
                ++ fs.map (fun e => ([e.1], Info.file (calculate_md5 e.2)))) [n] = none := by
              rw [slookup_append_none _ hA, slookup_mapFiles, hf]; rfl
            rw [slookup_append_none _ hAB, slookup_walkKids_none hl [],
              kindAt_cons_none (d := FsDir.mk ds fs) hl hf]
            rfl
          · have hAB : slookup (ds.map (fun e => ([e.1], Info.dir))
                ++ fs.map (fun e => ([e.1], Info.file (calculate_md5 e.2)))) [n]
                = some (Info.file (calculate_md5 c)) := by
              rw [slookup_append_none _ hA, slookup_mapFiles, hf]; rfl
            rw [slookup_append_some hAB,
              kindAt_cons_file_nil (d := FsDir.mk ds fs) hl hf]
            rfl
        · have hAB : slookup (ds.map (fun e => ([e.1], Info.dir))
              ++ fs.map (fun e => ([e.1], Info.file (calculate_md5 e.2)))) [n]
              = some Info.dir := by
            refine slookup_append_some ?_
            rw [slookup_mapDirs, hl]; rfl
          rw [slookup_append_some hAB,
            kindAt_cons_dir (d := FsDir.mk ds fs) hl, kindAt_nil]
          rfl
      | cons x xs =>
        have hAB : slookup (ds.map (fun e => ([e.1], Info.dir))
            ++ fs.map (fun e => ([e.1], Info.file (calculate_md5 e.2)))) (n :: x :: xs)
            = none := by
          rw [slookup_append_none _ (slookup_mapDirs_cons2 ds n x xs)]
          exact slookup_mapFiles_cons2 fs n x xs
        rw [slookup_append_none _ hAB]
        rcases hl : lookupA ds n with _ | sub
        · rw [slookup_walkKids_none hl (x :: xs)]
          rcases hf : lookupA fs n with _ | c
          · rw [kindAt_cons_none (d := FsDir.mk ds fs) hl hf]
            rfl
          · rw [kindAt_cons_file_cons (d := FsDir.mk ds fs) hl hf xs]
            rfl
        · rw [slookup_walkKids_some hndd hl (x :: xs)]
          rw [kindAt_cons_dir (d := FsDir.mk ds fs) hl]
          exact ih _ (lookupA_mem_of_some hl).1 (hkids _ (lookupA_mem_of_some hl).1) (by simp)

theorem pairwise_of_total {α : Type} {R : α → α → Prop} (h : ∀ a b, R a b) :
    ∀ l : List α, l.Pairwise R
  | [] => List.Pairwise.nil
  | a :: t => List.Pairwise.cons (fun b _ => h a b) (pairwise_of_total h t)

theorem walkKids_keys_shape {ds : List (String × FsDir)} {b : Path}
    (hb : b ∈ (walkKids ds).map Prod.fst) :
    ∃ m qt, b = m :: qt ∧ m ∈ ds.map Prod.fst ∧ qt ≠ [] := by
  obtain ⟨e, he, rfl⟩ := List.mem_map.1 hb
  obtain ⟨n, sub, q, hmem, hq, rfl⟩ := mem_walkKids.1 he
  exact ⟨n, q.1, rfl, List.mem_map.2 ⟨(n, sub), hmem, rfl⟩, walkList_path_ne_nil _ hq⟩

theorem block_keys_eq (n : String) (l : List (Path × Info)) :
    ((l.map (fun q => (n :: q.1, q.2))).map Prod.fst) = (l.map Prod.fst).map (fun q => n :: q) := by
  simp [List.map_map]

theorem walkKids_keys_nodup {ds : List (String × FsDir)}
    (hnd : (ds.map Prod.fst).Nodup)
    (ihn : ∀ e ∈ ds, ((walkList e.2).map Prod.fst).Nodup) :
    ((walkKids ds).map Prod.fst).Nodup := by
  induction ds with
  | nil => simp [walkKids]
  | cons hd t iht =>
    cases hd with
    | mk n sub =>
      simp only [List.map_cons, List.nodup_cons] at hnd
      simp only [walkKids, List.map_append, List.nodup_append]
      refine ⟨?_, ?_, ?_⟩
      · rw [block_keys_eq]
        exact (ihn (n, sub) (List.mem_cons_self _ _)).map (fun a b hab => by injection hab)
      · exact iht hnd.2 (fun e he => ihn e (List.mem_cons_of_mem _ he))
      · intro a ha hb
        rw [block_keys_eq] at ha
        obtain ⟨q, -, rfl⟩ := List.mem_map.1 ha
        obtain ⟨m, qt, heq, hm, -⟩ := walkKids_keys_shape hb
        have : n = m := by injection heq
        exact hnd.1 (this ▸ hm)

theorem walkKids_keys_pairwise {ds : List (String × FsDir)}
    (hnd : (ds.map Prod.fst).Nodup)
    (ihp : ∀ e ∈ ds, ((walkList e.2).map Prod.fst).Pairwise parentRel) :
    ((walkKids ds).map Prod.fst).Pairwise parentRel := by
  induction ds with
  | nil => simp [walkKids]
  | cons hd t iht =>
    cases hd with
    | mk n sub =>
      simp only [List.map_cons, List.nodup_cons] at hnd
      simp only [walkKids, List.map_append, List.pairwise_append]
      refine ⟨?_, ?_, ?_⟩
      · rw [block_keys_eq]
        rw [List.pairwise_map]
        refine (ihp (n, sub) (List.mem_cons_self _ _)).imp ?_
        intro a b hab hpre
        rw [List.cons_prefix_cons] at hpre
        rw [hab hpre.2]
      · exact iht hnd.2 (fun e he => ihp e (List.mem_cons_of_mem _ he))
      · intro a ha b hb
        rw [block_keys_eq] at ha
        obtain ⟨q, -, rfl⟩ := List.mem_map.1 ha
        obtain ⟨m, qt, heq, hm, -⟩ := walkKids_keys_shape hb
        subst heq
        intro hpre
        rw [List.cons_prefix_cons] at hpre
        exact absurd (hpre.1 ▸ hm) hnd.1

theorem walkList_keys_nodup {d : FsDir} (hwf : d.wfB = true) :
    ((walkList d).map Prod.fst).Nodup := by
  induction d using FsDir.induct with
  | step ds fs ih =>
    rcases wfB_mk_iff.1 hwf with ⟨hnd, hkids⟩
    rcases List.nodup_append.1 hnd with ⟨hndd, hndf, hdisj⟩
    rw [walkList]
    simp only [List.map_append, List.nodup_append]
    have hA : ((ds.map (fun e => ([e.1], Info.dir))).map Prod.fst)
        = (ds.map Prod.fst).map (fun m => [m]) := by
      simp [List.map_map]
    have hB : ((fs.map (fun e => ([e.1], Info.file (calculate_md5 e.2)))).map Prod.fst)
        = (fs.map Prod.fst).map (fun m => [m]) := by
      simp [List.map_map]
    refine ⟨⟨?_, ?_, ?_⟩, ?_, ?_⟩
    · rw [hA]
      exact hndd.map (fun a b hab => by injection hab)
    · rw [hB]
      exact hndf.map (fun a b hab => by injection hab)
    · rw [hA, hB]
      intro a ha hb
      obtain ⟨m, hm, rfl⟩ := List.mem_map.1 ha
      obtain ⟨m', hm', heq⟩ := List.mem_map.1 hb
      have : m' = m := by injection heq
      exact hdisj hm (this ▸ hm')
    · exact walkKids_keys_nodup hndd (fun e he => ih e he (hkids e he))
    · intro a ha hb
      obtain ⟨m, qt, heq, -, hqt⟩ := walkKids_keys_shape hb
      rcases List.mem_append.1 ha with ha | ha
      · rw [hA] at ha
        obtain ⟨m', -, rfl⟩ := List.mem_map.1 ha
        injection heq with h1 h2
        exact hqt h2.symm
      · rw [hB] at ha
        obtain ⟨m', -, rfl⟩ := List.mem_map.1 ha
        injection heq with h1 h2
        exact hqt h2.symm

theorem walkList_keys_pairwise {d : FsDir} (hwf : d.wfB = true) :
    ((walkList d).map Prod.fst).Pairwise parentRel := by
  induction d using FsDir.induct with
  | step ds fs ih =>
    rcases wfB_mk_iff.1 hwf with ⟨hnd, hkids⟩
    have hndd : (ds.map Prod.fst).Nodup := (List.nodup_append.1 hnd).1
    rw [walkList]
    simp only [List.map_append, List.pairwise_append]
    have hsingle : ∀ (l : List (String × FsDir)) (g : String × FsDir → Path × Info),
        True := fun _ _ => trivial
    have hA : ((ds.map (fun e => ([e.1], Info.dir))).map Prod.fst)
        = (ds.map Prod.fst).map (fun m => [m]) := by
      simp [List.map_map]
    have hB : ((fs.map (fun e => ([e.1], Info.file (calculate_md5 e.2)))).map Prod.fst)
        = (fs.map Prod.fst).map (fun m => [m]) := by
      simp [List.map_map]
    have hsingles : ∀ (a b : Path), (∃ x, a = [x]) → (∃ y, b = [y]) → parentRel a b := by
      rintro a b ⟨x, rfl⟩ ⟨y, rfl⟩ hpre
      rw [List.cons_prefix_cons] at hpre
      rw [hpre.1]
    have hlong : ∀ (a b : Path), (∃ x, a = [x]) → b ∈ (walkKids ds).map Prod.fst →
        parentRel a b := by
      rintro a b ⟨x, rfl⟩ hb hpre
      obtain ⟨m, qt, rfl, -, hqt⟩ := walkKids_keys_shape hb
      have hlen := hpre.length_le
      simp only [List.length_cons, List.length_nil] at hlen
      exact absurd (List.length_eq_zero.1 (by omega)) hqt
    refine ⟨⟨?_, ?_, ?_⟩, ?_, ?_⟩
    · rw [hA]
      rw [List.pairwise_map]
      exact pairwise_of_total (fun a b => hsingles [a] [b] ⟨a, rfl⟩ ⟨b, rfl⟩) _
    · rw [hB]
      rw [List.pairwise_map]
      exact pairwise_of_total (fun a b => hsingles [a] [b] ⟨a, rfl⟩ ⟨b, rfl⟩) _
    · rw [hA, hB]
      intro a ha b hb
      obtain ⟨m, -, rfl⟩ := List.mem_map.1 ha
      obtain ⟨m', -, rfl⟩ := List.mem_map.1 hb
      exact hsingles _ _ ⟨m, rfl⟩ ⟨m', rfl⟩
    · exact walkKids_keys_pairwise hndd (fun e he => ih e he (hkids e he))
    · intro a ha b hb
      rcases List.mem_append.1 ha with ha | ha
      · rw [hA] at ha
        obtain ⟨m, -, rfl⟩ := List.mem_map.1 ha
        exact hlong _ _ ⟨m, rfl⟩ hb
      · rw [hB] at ha
        obtain ⟨m, -, rfl⟩ := List.mem_map.1 ha
        exact hlong _ _ ⟨m, rfl⟩ hb

/-! ### `sync_directories` lemmas -/

theorem sync_directories_proc {items repl : List (Path × Info)} {d d₂ : FsDir}
    {lg : List LogEntry} {proc : List Path}
    (h : sync_directories items repl d = .ok (d₂, lg, proc)) :
    proc = (items.filter isDirRow).map Prod.fst := by
  induction items generalizing d d₂ lg proc with
  | nil =>
    simp only [sync_directories] at h
    cases h
    simp
  | cons hd rest ih =>
    rcases hd with ⟨p, i⟩
    cases i with
    | file h' =>
      simp only [sync_directories] at h
      rw [ih h]
      simp [isDirRow]
    | dir =>
      by_cases hsl : slookup repl p = none
      · rcases hm : d.makedirs p with e | d₁
        · simp only [sync_directories, hsl, eq_self_iff_true, if_true, hm] at h
          exact Except.noConfusion h
        · simp only [sync_directories, hsl, eq_self_iff_true, if_true, hm] at h
          rcases hr : sync_directories rest repl d₁ with e | ⟨d₃, lg₃, proc₃⟩
          · rw [hr] at h
            exact Except.noConfusion h
          · rw [hr] at h
            cases h
            rw [ih hr]
            simp [isDirRow]
      · simp only [sync_directories, if_neg hsl] at h
        rcases hr : sync_directories rest repl d with e | ⟨d₃, lg₃, proc₃⟩
        · rw [hr] at h
          exact Except.noConfusion h
        · rw [hr] at h
          cases h
          rw [ih hr]
          simp [isDirRow]

theorem sync_directories_log {items repl : List (Path × Info)} {d d₂ : FsDir}
    {lg : List LogEntry} {proc : List Path}
    (h : sync_directories items repl d = .ok (d₂, lg, proc)) :
    lg = items.filterMap (createRow repl) := by
  induction items generalizing d d₂ lg proc with
  | nil =>
    simp only [sync_directories] at h
    cases h
    simp
  | cons hd rest ih =>
    rcases hd with ⟨p, i⟩
    cases i with
    | file h' =>
      simp only [sync_directories] at h
      rw [List.filterMap_cons]
      simp only [createRow]
      exact ih h
    | dir =>
      by_cases hsl : slookup repl p = none
      · rcases hm : d.makedirs p with e | d₁
        · simp only [sync_directories, hsl, eq_self_iff_true, if_true, hm] at h
          exact Except.noConfusion h
        · simp only [sync_directories, hsl, eq_self_iff_true, if_true, hm] at h
          rcases hr : sync_directories rest repl d₁ with e | ⟨d₃, lg₃, proc₃⟩
          · rw [hr] at h
            exact Except.noConfusion h
          · rw [hr] at h
            cases h
            rw [List.filterMap_cons]
            simp only [createRow, hsl, eq_self_iff_true, if_true]
            rw [ih hr]
      · simp only [sync_directories, if_neg hsl] at h
        rcases hr : sync_directories rest repl d with e | ⟨d₃, lg₃, proc₃⟩
        · rw [hr] at h
          exact Except.noConfusion h
        · rw [hr] at h
          cases h
          rw [List.filterMap_cons]
          simp only [createRow, if_neg hsl]
          exact ih hr

theorem sync_directories_wf {items repl : List (Path × Info)} {d d₂ : FsDir}
    {lg : List LogEntry} {proc : List Path} (hwf : d.wfB = true)
    (h : sync_directories items repl d = .ok (d₂, lg, proc)) : d₂.wfB = true := by
  induction items generalizing d d₂ lg proc with
  | nil =>
    simp only [sync_directories] at h
    cases h
    exact hwf
  | cons hd rest ih =>
    rcases hd with ⟨p, i⟩
    cases i with
    | file h' =>
      simp only [sync_directories] at h
      exact ih hwf h
    | dir =>
      by_cases hsl : slookup repl p = none
      · rcases hm : d.makedirs p with e | d₁
        · simp only [sync_directories, hsl, eq_self_iff_true, if_true, hm] at h
          exact Except.noConfusion h
        · simp only [sync_directories, hsl, eq_self_iff_true, if_true, hm] at h
          rcases hr : sync_directories rest repl d₁ with e | ⟨d₃, lg₃, proc₃⟩
          · rw [hr] at h
            exact Except.noConfusion h
          · rw [hr] at h
            cases h
            exact ih (makedirs_wf hwf hm) hr
      · simp only [sync_directories, if_neg hsl] at h
        rcases hr : sync_directories rest repl d with e | ⟨d₃, lg₃, proc₃⟩
        · rw [hr] at h
          exact Except.noConfusion h
        · rw [hr] at h
          cases h
          exact ih hwf hr

theorem sync_directories_kindAt {items repl : List (Path × Info)} {d d₂ : FsDir}
    {lg : List LogEntry} {proc : List Path}
    (h : sync_directories items repl d = .ok (d₂, lg, proc)) : ∀ q : Path,
    (d.kindAt q ≠ none → d₂.kindAt q = d.kindAt q) ∧
    (d.kindAt q = none →
      (∃ e ∈ items, isDirRow e = true ∧ slookup repl e.1 = none ∧ q <+: e.1) →
      d₂.kindAt q = some .dirK) ∧
    (d.kindAt q = none →
      (¬ ∃ e ∈ items, isDirRow e = true ∧ slookup repl e.1 = none ∧ q <+: e.1) →
      d₂.kindAt q = none) := by
  induction items generalizing d d₂ lg proc with
  | nil =>
    simp only [sync_directories] at h
    cases h
    intro q
    refine ⟨fun _ => rfl, fun hq hex => ?_, fun hq _ => hq⟩
    simp at hex
  | cons hd rest ih =>
    rcases hd with ⟨p, i⟩
    cases i with
    | file h' =>
      simp only [sync_directories] at h
      intro q
      have hcond : (∃ e ∈ (p, Info.file h') :: rest,
          isDirRow e = true ∧ slookup repl e.1 = none ∧ q <+: e.1) ↔
          (∃ e ∈ rest, isDirRow e = true ∧ slookup repl e.1 = none ∧ q <+: e.1) := by
        constructor
        · rintro ⟨e, he, hrow, hsl, hpre⟩
          rcases List.mem_cons.1 he with heq | hmem
          · subst heq
            simp [isDirRow] at hrow
          · exact ⟨e, hmem, hrow, hsl, hpre⟩
        · rintro ⟨e, hmem, hrow, hsl, hpre⟩
          exact ⟨e, List.mem_cons_of_mem _ hmem, hrow, hsl, hpre⟩
      refine ⟨(ih h q).1, fun hq hex => (ih h q).2.1 hq (hcond.1 hex),
        fun hq hex => (ih h q).2.2 hq (fun hex2 => hex (hcond.2 hex2))⟩
    | dir =>
      by_cases hsl : slookup repl p = none
      · rcases hm : d.makedirs p with e | d₁
        · simp only [sync_directories, hsl, eq_self_iff_true, if_true, hm] at h
          exact Except.noConfusion h
        · simp only [sync_directories, hsl, eq_self_iff_true, if_true, hm] at h
          rcases hr : sync_directories rest repl d₁ with e | ⟨d₃, lg₃, proc₃⟩
          · rw [hr] at h
            exact Except.noConfusion h
          · rw [hr] at h
            cases h
            intro q
            have hmk := makedirs_kindAt hm q
            refine ⟨?_, ?_, ?_⟩
            · intro hq
              have hcond : ¬ (d.kindAt q = none ∧ q ≠ [] ∧ q <+: p) := by
                rintro ⟨h1, -, -⟩
                exact hq h1
              rw [if_neg hcond] at hmk
              have h1 := (ih hr q).1 (by rw [hmk]; exact hq)
              rw [h1, hmk]
            · intro hq hex
              by_cases hqp : q ≠ [] ∧ q <+: p
              · rw [if_pos ⟨hq, hqp.1, hqp.2⟩] at hmk
                have h1 := (ih hr q).1 (by rw [hmk]; simp)
                rw [h1, hmk]
              · have hcond : ¬ (d.kindAt q = none ∧ q ≠ [] ∧ q <+: p) := by
                  rintro ⟨-, h2, h3⟩
                  exact hqp ⟨h2, h3⟩
                rw [if_neg hcond] at hmk
                have hq1 : d₁.kindAt q = none := by rw [hmk]; exact hq
                have hqnil : q ≠ [] := by
                  intro hqe
                  subst hqe
                  rw [kindAt_nil] at hq
                  exact Option.noConfusion hq
                rcases hex with ⟨e, he, hrow, hsle, hpre⟩
                rcases List.mem_cons.1 he with heq | hmem
                · subst heq
                  exact absurd ⟨hqnil, hpre⟩ hqp
                · exact (ih hr q).2.1 hq1 ⟨e, hmem, hrow, hsle, hpre⟩
            · intro hq hex
              have hnp : ¬ (q ≠ [] ∧ q <+: p) := by
                rintro ⟨h1, h2⟩
                exact hex ⟨(p, Info.dir), List.mem_cons_self _ _, rfl, hsl, h2⟩
              have hcond : ¬ (d.kindAt q = none ∧ q ≠ [] ∧ q <+: p) := by
                rintro ⟨-, h2, h3⟩
                exact hnp ⟨h2, h3⟩
              rw [if_neg hcond] at hmk
              have hq1 : d₁.kindAt q = none := by rw [hmk]; exact hq
              refine (ih hr q).2.2 hq1 ?_
              rintro ⟨e, hmem, hrow, hsle, hpre⟩
              exact hex ⟨e, List.mem_cons_of_mem _ hmem, hrow, hsle, hpre⟩
      · simp only [sync_directories, if_neg hsl] at h
        rcases hr : sync_directories rest repl d with e | ⟨d₃, lg₃, proc₃⟩
        · rw [hr] at h
          exact Except.noConfusion h
        · rw [hr] at h
          cases h
          intro q
          have hcond : (∃ e ∈ (p, Info.dir) :: rest,
              isDirRow e = true ∧ slookup repl e.1 = none ∧ q <+: e.1) ↔
              (∃ e ∈ rest, isDirRow e = true ∧ slookup repl e.1 = none ∧ q <+: e.1) := by
            constructor
            · rintro ⟨e, he, hrow, hsle, hpre⟩
              rcases List.mem_cons.1 he with heq | hmem
              · subst heq
                exact absurd hsle hsl
              · exact ⟨e, hmem, hrow, hsle, hpre⟩
            · rintro ⟨e, hmem, hrow, hsle, hpre⟩
              exact ⟨e, List.mem_cons_of_mem _ hmem, hrow, hsle, hpre⟩
          refine ⟨(ih hr q).1, fun hq hex => (ih hr q).2.1 hq (hcond.1 hex),
            fun hq hex => (ih hr q).2.2 hq (fun hex2 => hex (hcond.2 hex2))⟩

/-! ### `sync_files` lemmas -/

theorem sync_files_cons_dir (p : Path) (rest repl : List (Path × Info)) (s r : FsDir) :
    sync_files ((p, Info.dir) :: rest) repl s r = sync_files rest repl s r := by
  simp only [sync_files]

theorem sync_files_cons_file {p : Path} {h' : Option String} {rest repl : List (Path × Info)}
    {s r : FsDir} {out : FsDir × List LogEntry × List Path}
    (h : sync_files ((p, Info.file h') :: rest) repl s r = .ok out) :
    (copyDecision repl p h' = .ok none ∧
      ∃ r₃ lg proc, sync_files rest repl s r = .ok (r₃, lg, proc) ∧
        out = (r₃, lg, p :: proc)) ∨
    (∃ op r₁ c r₂ r₃ lg proc, copyDecision repl p h' = .ok (some op) ∧
      (if (r.lookupPath p.dropLast).isSome then Except.ok r
        else r.makedirs p.dropLast) = .ok r₁ ∧
      s.lookupPath p = some (.fileNode c) ∧ r₁.writeFile p c = .ok r₂ ∧
      sync_files rest repl s r₂ = .ok (r₃, lg, proc) ∧
      out = (r₃, ⟨op, p⟩ :: lg, p :: proc)) := by
  rcases hd : copyDecision repl p h' with e | v
  · simp only [sync_files, hd] at h
    exact Except.noConfusion h
  · cases v with
    | none =>
      simp only [sync_files, hd] at h
      rcases hr : sync_files rest repl s r with e | ⟨r₃, lg, proc⟩
      · rw [hr] at h
        exact Except.noConfusion h
      · rw [hr] at h
        cases h
        exact Or.inl ⟨rfl, r₃, lg, proc, rfl, rfl⟩
    | some op =>
      simp only [sync_files, hd] at h
      rcases hp : (if (r.lookupPath p.dropLast).isSome then Except.ok r
          else r.makedirs p.dropLast : Except PyErr FsDir) with e | r₁
      · simp only [hp] at h
        exact Except.noConfusion h
      · simp only [hp] at h
        rcases hs : s.lookupPath p with _ | obj
        · simp only [hs] at h
          exact Except.noConfusion h
        · simp only [hs] at h
          cases obj with
          | dirNode sub => exact Except.noConfusion h
          | fileNode c =>
            rcases hw : r₁.writeFile p c with e | r₂
            · simp only [hw] at h
              exact Except.noConfusion h
            · simp only [hw] at h
              rcases hr : sync_files rest repl s r₂ with e | ⟨r₃, lg, proc⟩
              · simp only [hr] at h
                exact Except.noConfusion h
              · simp only [hr] at h
                cases h
                exact Or.inr ⟨op, r₁, c, r₂, r₃, lg, proc, rfl, rfl, rfl, hw, hr, rfl⟩

/-- The filesystem change of the parent-creation plus copy step, seen at the
`kindAt` level: the copied path now holds the source content, paths that are
not prefixes of the copied path are untouched, and non-`none` paths other
than the copied one are untouched. -/
theorem copy_step_kindAt {p : Path} {r r₁ r₂ : FsDir} {c : String}
    (hp : (if (r.lookupPath p.dropLast).isSome then Except.ok r
      else r.makedirs p.dropLast) = .ok r₁)
    (hw : r₁.writeFile p c = .ok r₂) :
    r₂.kindAt p = some (.fileK c) ∧
    (∀ q, ¬ q <+: p → r₂.kindAt q = r.kindAt q) ∧
    (∀ q, q ≠ p → r.kindAt q ≠ none → r₂.kindAt q = r.kindAt q) := by
  have h₁ : ∀ q, r₁.kindAt q = r.kindAt q ∨
      (r.kindAt q = none ∧ q ≠ [] ∧ q <+: p.dropLast ∧ r₁.kindAt q = some .dirK) := by
    intro q
    by_cases hex : (r.lookupPath p.dropLast).isSome
    · rw [if_pos hex] at hp
      cases hp
      exact Or.inl rfl
    · rw [if_neg hex] at hp
      have := makedirs_kindAt hp q
      by_cases hcond : r.kindAt q = none ∧ q ≠ [] ∧ q <+: p.dropLast
      · rw [if_pos hcond] at this
        exact Or.inr ⟨hcond.1, hcond.2.1, hcond.2.2, this⟩
      · rw [if_neg hcond] at this
        exact Or.inl this
  refine ⟨(writeFile_kindAt hw).1, ?_, ?_⟩
  · intro q hq
    have hqp : q ≠ p := fun he => hq (he ▸ List.prefix_refl q)
    rw [(writeFile_kindAt hw).2 q hqp]
    rcases h₁ q with h₂ | ⟨-, -, hpre, -⟩
    · exact h₂
    · exact absurd (hpre.trans (List.dropLast_prefix p)) hq
  · intro q hqp hnn
    rw [(writeFile_kindAt hw).2 q hqp]
    rcases h₁ q with h₂ | ⟨hn, -, -, -⟩
    · exact h₂
    · exact absurd hn hnn

theorem sync_files_proc {items repl : List (Path × Info)} {s r r₃ : FsDir}
    {lg : List LogEntry} {proc : List Path}
    (h : sync_files items repl s r = .ok (r₃, lg, proc)) :
    proc = (items.filter isFileRow).map Prod.fst := by
  induction items generalizing r r₃ lg proc with
  | nil =>
    simp only [sync_files] at h
    cases h
    simp
  | cons hd rest ih =>
    rcases hd with ⟨p, i⟩
    cases i with
    | dir =>
      rw [sync_files_cons_dir] at h
      rw [ih h]
      simp [isFileRow]
    | file h' =>
      rcases sync_files_cons_file h with ⟨-, r₄, lg₄, proc₄, hr, hout⟩ |
        ⟨op, r₁, c, r₂, r₄, lg₄, proc₄, -, -, -, -, hr, hout⟩ <;>
        (cases hout; rw [ih hr]; simp [isFileRow])

theorem sync_files_log {items repl : List (Path × Info)} {s r r₃ : FsDir}
    {lg : List LogEntry} {proc : List Path}
    (h : sync_files items repl s r = .ok (r₃, lg, proc)) :
    lg = items.filterMap (logRow repl) := by
  induction items generalizing r r₃ lg proc with
  | nil =>
    simp only [sync_files] at h
    cases h
    simp
  | cons hd rest ih =>
    rcases hd with ⟨p, i⟩
    cases i with
    | dir =>
      rw [sync_files_cons_dir] at h
      rw [List.filterMap_cons]
      simp only [logRow]
      exact ih h
    | file h' =>
      rcases sync_files_cons_file h with ⟨hd₀, r₄, lg₄, proc₄, hr, hout⟩ |
        ⟨op, r₁, c, r₂, r₄, lg₄, proc₄, hd₀, -, -, -, hr, hout⟩
      · cases hout
        rw [List.filterMap_cons]
        simp only [logRow, hd₀]
        exact ih hr
      · cases hout
        rw [List.filterMap_cons]
        simp only [logRow, hd₀]
        rw [ih hr]

theorem sync_files_wf {items repl : List (Path × Info)} {s r r₃ : FsDir}
    {lg : List LogEntry} {proc : List Path} (hwf : r.wfB = true)
    (h : sync_files items repl s r = .ok (r₃, lg, proc)) : r₃.wfB = true := by
  induction items generalizing r r₃ lg proc with
  | nil =>
    simp only [sync_files] at h
    cases h
    exact hwf
  | cons hd rest ih =>
    rcases hd with ⟨p, i⟩
    cases i with
    | dir =>
      rw [sync_files_cons_dir] at h
      exact ih hwf h
    | file h' =>
      rcases sync_files_cons_file h with ⟨-, r₄, lg₄, proc₄, hr, hout⟩ |
        ⟨op, r₁, c, r₂, r₄, lg₄, proc₄, -, hp, -, hw, hr, hout⟩
      · cases hout
        exact ih hwf hr
      · cases hout
        have hwf₁ : r₁.wfB = true := by
          by_cases hex : (r.lookupPath p.dropLast).isSome
          · rw [if_pos hex] at hp
            cases hp
            exact hwf
          · rw [if_neg hex] at hp
            exact makedirs_wf hwf hp
        exact ih (writeFile_wf hwf₁ hw) hr

theorem sync_files_decision_ok {items repl : List (Path × Info)} {s r r₃ : FsDir}
    {lg : List LogEntry} {proc : List Path}
    (h : sync_files items repl s r = .ok (r₃, lg, proc)) :
    ∀ e ∈ items, ∀ h', e.2 = Info.file h' → ∃ v, copyDecision repl e.1 h' = .ok v := by
  induction items generalizing r r₃ lg proc with
  | nil => simp
  | cons hd rest ih =>
    rcases hd with ⟨p, i⟩
    intro e he h' hfile
    rcases List.mem_cons.1 he with heq | hmem
    · subst heq
      cases i with
      | dir => simp at hfile
      | file hh =>
        have hhe : hh = h' := by simpa using hfile
        subst hhe
        rcases sync_files_cons_file h with ⟨hd₀, -, -, -, -, -⟩ |
          ⟨op, -, -, -, -, -, -, hd₀, -⟩
        · exact ⟨none, hd₀⟩
        · exact ⟨some op, hd₀⟩
    · cases i with
      | dir =>
        rw [sync_files_cons_dir] at h
        exact ih h e hmem h' hfile
      | file hh =>
        rcases sync_files_cons_file h with ⟨-, r₄, lg₄, proc₄, hr, -⟩ |
          ⟨op, r₁, c, r₂, r₄, lg₄, proc₄, -, -, -, -, hr, -⟩
        · exact ih hr e hmem h' hfile
        · exact ih hr e hmem h' hfile

theorem sync_files_frame {items repl : List (Path × Info)} {s r r₃ : FsDir}
    {lg : List LogEntry} {proc : List Path}
    (h : sync_files items repl s r = .ok (r₃, lg, proc)) :
    ∀ q, (∀ e ∈ items, isFileRow e = true → ¬ q <+: e.1) → r₃.kindAt q = r.kindAt q := by
  induction items generalizing r r₃ lg proc with
  | nil =>
    simp only [sync_files] at h
    cases h
    exact fun q _ => rfl
  | cons hd rest ih =>
    rcases hd with ⟨p, i⟩
    intro q hq
    cases i with
    | dir =>
      rw [sync_files_cons_dir] at h
      exact ih h q (fun e he hrow => hq e (List.mem_cons_of_mem _ he) hrow)
    | file h' =>
      rcases sync_files_cons_file h with ⟨-, r₄, lg₄, proc₄, hr, hout⟩ |
        ⟨op, r₁, c, r₂, r₄, lg₄, proc₄, -, hp, -, hw, hr, hout⟩
      · cases hout
        exact ih hr q (fun e he hrow => hq e (List.mem_cons_of_mem _ he) hrow)
      · cases hout
        rw [ih hr q (fun e he hrow => hq e (List.mem_cons_of_mem _ he) hrow)]
        exact (copy_step_kindAt hp hw).2.1 q
          (hq (p, Info.file h') (List.mem_cons_self _ _) rfl)

theorem sync_files_nonNone {items repl : List (Path × Info)} {s r r₃ : FsDir}
    {lg : List LogEntry} {proc : List Path}
    (h : sync_files items repl s r = .ok (r₃, lg, proc)) :
    ∀ q, r.kindAt q ≠ none → (∀ e ∈ items, isFileRow e = true → q ≠ e.1) →
      r₃.kindAt q = r.kindAt q := by
  induction items generalizing r r₃ lg proc with
  | nil =>
    simp only [sync_files] at h
    cases h
    exact fun q _ _ => rfl
  | cons hd rest ih =>
    rcases hd with ⟨p, i⟩
    intro q hnn hq
    cases i with
    | dir =>
      rw [sync_files_cons_dir] at h
      exact ih h q hnn (fun e he hrow => hq e (List.mem_cons_of_mem _ he) hrow)
    | file h' =>
      rcases sync_files_cons_file h with ⟨-, r₄, lg₄, proc₄, hr, hout⟩ |
        ⟨op, r₁, c, r₂, r₄, lg₄, proc₄, -, hp, -, hw, hr, hout⟩
      · cases hout
        exact ih hr q hnn (fun e he hrow => hq e (List.mem_cons_of_mem _ he) hrow)
      · cases hout
        have hstep : r₂.kindAt q = r.kindAt q :=
          (copy_step_kindAt hp hw).2.2 q
            (hq (p, Info.file h') (List.mem_cons_self _ _) rfl) hnn
        rw [ih hr q (by rw [hstep]; exact hnn)
          (fun e he hrow => hq e (List.mem_cons_of_mem _ he) hrow)]
        exact hstep

theorem sync_files_copied {items repl : List (Path × Info)} {s r r₃ : FsDir}
    {lg : List LogEntry} {proc : List Path} (hnd : (items.map Prod.fst).Nodup)
    (h : sync_files items repl s r = .ok (r₃, lg, proc)) :
    ∀ e ∈ items, ∀ h' op, e.2 = Info.file h' → copyDecision repl e.1 h' = .ok (some op) →
      ∃ c, s.kindAt e.1 = some (.fileK c) ∧ r₃.kindAt e.1 = some (.fileK c) := by
  induction items generalizing r r₃ lg proc with
  | nil => simp
  | cons hd rest ih =>
    rcases hd with ⟨p, i⟩
    simp only [List.map_cons, List.nodup_cons] at hnd
    intro e he h' op hfile hdec
    rcases List.mem_cons.1 he with heq | hmem
    · subst heq
      cases i with
      | dir => simp at hfile
      | file hh =>
        have hhe : hh = h' := by simpa using hfile
        subst hhe
        rcases sync_files_cons_file h with ⟨hd₀, r₄, lg₄, proc₄, hr, hout⟩ |
          ⟨op', r₁, c, r₂, r₄, lg₄, proc₄, hd₀, hp, hs, hw, hr, hout⟩
        · rw [hdec] at hd₀
          simp at hd₀
        · cases hout
          refine ⟨c, ?_, ?_⟩
          · simp only [FsDir.kindAt, hs]
          · have hcp : r₂.kindAt p = some (.fileK c) := (copy_step_kindAt hp hw).1
            rw [sync_files_nonNone hr p (by rw [hcp]; simp)
              (fun e' he' hrow heq => hnd.1 (heq ▸ List.mem_map.2 ⟨e', he', rfl⟩))]
            exact hcp
    · cases i with
      | dir =>
        rw [sync_files_cons_dir] at h
        exact ih hnd.2 h e hmem h' op hfile hdec
      | file hh =>
        rcases sync_files_cons_file h with ⟨-, r₄, lg₄, proc₄, hr, hout⟩ |
          ⟨op', r₁, c, r₂, r₄, lg₄, proc₄, -, -, -, -, hr, hout⟩
        · cases hout
          exact ih hnd.2 hr e hmem h' op hfile hdec
        · cases hout
          exact ih hnd.2 hr e hmem h' op hfile hdec

theorem sync_files_skipped {items repl : List (Path × Info)} {s r r₃ : FsDir}
    {lg : List LogEntry} {proc : List Path} (hnd : (items.map Prod.fst).Nodup)
    (hnoext : ∀ e e', e ∈ items → e' ∈ items → isFileRow e = true → e.1 <+: e'.1 → e.1 = e'.1)
    (h : sync_files items repl s r = .ok (r₃, lg, proc)) :
    ∀ e ∈ items, ∀ h', e.2 = Info.file h' → copyDecision repl e.1 h' = .ok none →
      r₃.kindAt e.1 = r.kindAt e.1 := by
  induction items generalizing r r₃ lg proc with
  | nil => simp
  | cons hd rest ih =>
    rcases hd with ⟨p, i⟩
    simp only [List.map_cons, List.nodup_cons] at hnd
    intro e he h' hfile hdec
    have hnoext' : ∀ e₁ e₂, e₁ ∈ rest → e₂ ∈ rest → isFileRow e₁ = true →
        e₁.1 <+: e₂.1 → e₁.1 = e₂.1 :=
      fun e₁ e₂ h₁ h₂ => hnoext e₁ e₂ (List.mem_cons_of_mem _ h₁) (List.mem_cons_of_mem _ h₂)
    rcases List.mem_cons.1 he with heq | hmem
    · subst heq
      cases i with
      | dir => simp at hfile
      | file hh =>
        have hhe : hh = h' := by simpa using hfile
        subst hhe
        rcases sync_files_cons_file h with ⟨hd₀, r₄, lg₄, proc₄, hr, hout⟩ |
          ⟨op', r₁, c, r₂, r₄, lg₄, proc₄, hd₀, hp, hs, hw, hr, hout⟩
        · cases hout
          refine sync_files_frame hr p ?_
          intro e' he' hrow hpre
          have heq1 : p = e'.1 := hnoext (p, Info.file hh) e' (List.mem_cons_self _ _)
            (List.mem_cons_of_mem _ he') rfl hpre
          exact hnd.1 (heq1 ▸ List.mem_map.2 ⟨e', he', rfl⟩)
        · rw [hdec] at hd₀
          simp at hd₀
    · cases i with
      | dir =>
        rw [sync_files_cons_dir] at h
        exact ih hnd.2 hnoext' h e hmem h' hfile hdec
      | file hh =>
        rcases sync_files_cons_file h with ⟨-, r₄, lg₄, proc₄, hr, hout⟩ |
          ⟨op', r₁, c, r₂, r₄, lg₄, proc₄, -, hp, -, hw, hr, hout⟩
        · cases hout
          exact ih hnd.2 hnoext' hr e hmem h' hfile hdec
        · cases hout
          rw [ih hnd.2 hnoext' hr e hmem h' hfile hdec]
          refine (copy_step_kindAt hp hw).2.1 e.1 ?_
          intro hpre
          have hrow : isFileRow e = true := by
            rcases e with ⟨pe, ie⟩
            cases ie with
            | dir => simp at hfile
            | file h₂ => simp [isFileRow]
          have heq1 : e.1 = p := hnoext e (p, Info.file hh) (List.mem_cons_of_mem _ hmem)
            (List.mem_cons_self _ _) hrow hpre
          exact hnd.1 (heq1 ▸ List.mem_map.2 ⟨e, hmem, rfl⟩)

/-! ### `remove_item` lemmas -/

theorem lookupPath_isSome_iff {r : FsDir} {q : Path} :
    (r.lookupPath q).isSome = true ↔ r.kindAt q ≠ none := by
  unfold FsDir.kindAt
  cases hlp : r.lookupPath q with
  | none => simp
  | some obj => cases obj <;> simp

theorem kindAt_none_of_prefix {r : FsDir} {q p : Path}
    (hq : r.kindAt q = none) (hpre : q <+: p) : r.kindAt p = none := by
  by_cases hqp : p = q
  · exact hqp ▸ hq
  · by_contra hnn
    rw [kindAt_prefix_dirK hnn hpre (fun he => hqp he.symm)] at hq
    exact Option.noConfusion hq

theorem kindCompat_none (i : Info) : kindCompat none i := by
  cases i <;> trivial

theorem remove_item_log {items : List (Path × Info)} {proc : List Path} {r r₂ : FsDir}
    {lg : List LogEntry} (h : remove_item items proc r = .ok (r₂, lg)) :
    ∀ e ∈ lg, e.operation = "REMOVE" ∧ e.path ∈ items.map Prod.fst ∧ e.path ∉ proc := by
  induction items generalizing r r₂ lg with
  | nil =>
    simp only [remove_item] at h
    cases h
    simp
  | cons hd rest ih =>
    rcases hd with ⟨p, i⟩
    by_cases hproc : p ∈ proc
    · simp only [remove_item, if_pos hproc] at h
      intro e he
      rcases ih h e he with ⟨h1, h2, h3⟩
      exact ⟨h1, by simp [h2], h3⟩
    · cases i with
      | file hh =>
        by_cases hex : (r.lookupPath p).isSome = true
        · rcases hrm : r.removeFile p with e₀ | r₁
          · simp only [remove_item, if_neg hproc, if_pos hex, hrm] at h
            exact Except.noConfusion h
          · simp only [remove_item, if_neg hproc, if_pos hex, hrm] at h
            rcases hr : remove_item rest proc r₁ with e₀ | ⟨r₃, lg₃⟩
            · rw [hr] at h
              exact Except.noConfusion h
            · rw [hr] at h
              cases h
              intro e he
              rcases List.mem_cons.1 he with heq | hmem
              · subst heq
                exact ⟨rfl, by simp, hproc⟩
              · rcases ih hr e hmem with ⟨h1, h2, h3⟩
                exact ⟨h1, by simp [h2], h3⟩
        · simp only [remove_item, if_neg hproc, if_neg hex] at h
          intro e he
          rcases ih h e he with ⟨h1, h2, h3⟩
          exact ⟨h1, by simp [h2], h3⟩
      | dir =>
        by_cases hex : (r.lookupPath p).isSome = true
        · rcases hrm : r.rmtree p with e₀ | r₁
          · simp only [remove_item, if_neg hproc, if_pos hex, hrm] at h
            intro e he
            rcases ih h e he with ⟨h1, h2, h3⟩
            exact ⟨h1, by simp [h2], h3⟩
          · simp only [remove_item, if_neg hproc, if_pos hex, hrm] at h
            rcases hr : remove_item rest proc r₁ with e₀ | ⟨r₃, lg₃⟩
            · rw [hr] at h
              exact Except.noConfusion h
            · rw [hr] at h
              cases h
              intro e he
              rcases List.mem_cons.1 he with heq | hmem
              · subst heq
                exact ⟨rfl, by simp, hproc⟩
              · rcases ih hr e hmem with ⟨h1, h2, h3⟩
                exact ⟨h1, by simp [h2], h3⟩
        · simp only [remove_item, if_neg hproc, if_neg hex] at h
          intro e he
          rcases ih h e he with ⟨h1, h2, h3⟩
          exact ⟨h1, by simp [h2], h3⟩

theorem remove_item_wf {items : List (Path × Info)} {proc : List Path} {r r₂ : FsDir}
    {lg : List LogEntry} (hwf : r.wfB = true)
    (h : remove_item items proc r = .ok (r₂, lg)) : r₂.wfB = true := by
  induction items generalizing r r₂ lg with
  | nil =>
    simp only [remove_item] at h
    cases h
    exact hwf
  | cons hd rest ih =>
    rcases hd with ⟨p, i⟩
    by_cases hproc : p ∈ proc
    · simp only [remove_item, if_pos hproc] at h
      exact ih hwf h
    · cases i with
      | file hh =>
        by_cases hex : (r.lookupPath p).isSome = true
        · rcases hrm : r.removeFile p with e₀ | r₁
          · simp only [remove_item, if_neg hproc, if_pos hex, hrm] at h
            exact Except.noConfusion h
          · simp only [remove_item, if_neg hproc, if_pos hex, hrm] at h
            rcases hr : remove_item rest proc r₁ with e₀ | ⟨r₃, lg₃⟩
            · rw [hr] at h
              exact Except.noConfusion h
            · rw [hr] at h
              cases h
              exact ih (removeFile_wf hwf hrm) hr
        · simp only [remove_item, if_neg hproc, if_neg hex] at h
          exact ih hwf h
      | dir =>
        by_cases hex : (r.lookupPath p).isSome = true
        · rcases hrm : r.rmtree p with e₀ | r₁
          · simp only [remove_item, if_neg hproc, if_pos hex, hrm] at h
            exact ih hwf h
          · simp only [remove_item, if_neg hproc, if_pos hex, hrm] at h
            rcases hr : remove_item rest proc r₁ with e₀ | ⟨r₃, lg₃⟩
            · rw [hr] at h
              exact Except.noConfusion h
            · rw [hr] at h
              cases h
              exact ih (rmtree_wf hwf hrm) hr
        · simp only [remove_item, if_neg hproc, if_neg hex] at h
          exact ih hwf h

theorem remove_item_kindAt {items : List (Path × Info)} {proc : List Path} {r r₂ : FsDir}
    {lg : List LogEntry} (hwf : r.wfB = true)
    (hne : ∀ e ∈ items, e.1 ≠ [])
    (hcompat : ∀ e ∈ items, e.1 ∉ proc → kindCompat (r.kindAt e.1) e.2)
    (h : remove_item items proc r = .ok (r₂, lg)) : ∀ p : Path,
    ((∃ e ∈ items, e.1 ∉ proc ∧ e.1 <+: p) → r₂.kindAt p = none) ∧
    ((¬ ∃ e ∈ items, e.1 ∉ proc ∧ e.1 <+: p) → r₂.kindAt p = r.kindAt p) := by
  induction items generalizing r r₂ lg with
  | nil =>
    simp only [remove_item] at h
    cases h
    intro p
    refine ⟨fun hex => ?_, fun _ => rfl⟩
    simp at hex
  | cons hd rest ih =>
    rcases hd with ⟨q, i⟩
    have hne' : ∀ e ∈ rest, e.1 ≠ [] := fun e he => hne e (List.mem_cons_of_mem _ he)
    by_cases hproc : q ∈ proc
    · simp only [remove_item, if_pos hproc] at h
      have hcompat' : ∀ e ∈ rest, e.1 ∉ proc → kindCompat (r.kindAt e.1) e.2 :=
        fun e he => hcompat e (List.mem_cons_of_mem _ he)
      intro p
      have hiff : (∃ e ∈ (q, i) :: rest, e.1 ∉ proc ∧ e.1 <+: p) ↔
          (∃ e ∈ rest, e.1 ∉ proc ∧ e.1 <+: p) := by
        constructor
        · rintro ⟨e, he, hup, hpre⟩
          rcases List.mem_cons.1 he with heq | hmem
          · subst heq
            exact absurd hproc hup
          · exact ⟨e, hmem, hup, hpre⟩
        · rintro ⟨e, hm, hu, hp2⟩
          exact ⟨e, List.mem_cons_of_mem _ hm, hu, hp2⟩
      exact ⟨fun hex => (ih hwf hne' hcompat' h p).1 (hiff.1 hex),
        fun hnex => (ih hwf hne' hcompat' h p).2 (fun hex => hnex (hiff.2 hex))⟩
    · have hcompatq := hcompat (q, i) (List.mem_cons_self _ _) hproc
      cases i with
      | file hh =>
        by_cases hex : (r.lookupPath q).isSome = true
        · have hkq : ∃ c, r.kindAt q = some (.fileK c) := by
            rcases hk : r.kindAt q with _ | k
            · rw [lookupPath_isSome_iff] at hex
              exact absurd hk hex
            · cases k with
              | dirK =>
                rw [hk] at hcompatq
                exact absurd hcompatq (by simp [kindCompat])
              | fileK c => exact ⟨c, rfl⟩
          obtain ⟨c, hkq⟩ := hkq
          obtain ⟨n, qt, rfl⟩ : ∃ n qt, q = n :: qt := by
            cases hq0 : q with
            | nil => exact absurd hq0 (hne (q, Info.file hh) (List.mem_cons_self _ _))
            | cons n qt => exact ⟨n, qt, rfl⟩
          obtain ⟨r₁, hrm⟩ := removeFile_ok_of_fileK hkq
          simp only [remove_item, if_neg hproc, if_pos hex, hrm] at h
          rcases hr : remove_item rest proc r₁ with e₀ | ⟨r₃, lg₃⟩
          · rw [hr] at h
            exact Except.noConfusion h
          · rw [hr] at h
            cases h
            have hfr := removeFile_kindAt hrm
            have hcompat' : ∀ e ∈ rest, e.1 ∉ proc → kindCompat (r₁.kindAt e.1) e.2 := by
              intro e he hu
              by_cases hqe : (n :: qt) <+: e.1
              · rw [hfr.1 e.1 hqe]
                exact kindCompat_none e.2
              · rw [hfr.2 e.1 hqe]
                exact hcompat e (List.mem_cons_of_mem _ he) hu
            have ihh := ih (removeFile_wf hwf hrm) hne' hcompat' hr
            intro p
            constructor
            · rintro ⟨e, he, hu, hpre⟩
              rcases List.mem_cons.1 he with heq | hmem
              · subst heq
                have h1 : r₁.kindAt p = none := hfr.1 p hpre
                by_cases hex2 : ∃ e ∈ rest, e.1 ∉ proc ∧ e.1 <+: p
                · exact (ihh p).1 hex2
                · rw [(ihh p).2 hex2]
                  exact h1
              · exact (ihh p).1 ⟨e, hmem, hu, hpre⟩
            · intro hnex
              have hnq : ¬ (n :: qt) <+: p := fun hpre =>
                hnex ⟨(n :: qt, Info.file hh), List.mem_cons_self _ _, hproc, hpre⟩
              have hnex' : ¬ ∃ e ∈ rest, e.1 ∉ proc ∧ e.1 <+: p := by
                rintro ⟨e, hm, hu, hp2⟩
                exact hnex ⟨e, List.mem_cons_of_mem _ hm, hu, hp2⟩
              rw [(ihh p).2 hnex', hfr.2 p hnq]
        · have hkqnone : r.kindAt q = none := by
            rcases hk : r.kindAt q with _ | k
            · rfl
            · exfalso
              apply hex
              rw [lookupPath_isSome_iff, hk]
              simp
          simp only [remove_item, if_neg hproc, if_neg hex] at h
          have hcompat' : ∀ e ∈ rest, e.1 ∉ proc → kindCompat (r.kindAt e.1) e.2 :=
            fun e he => hcompat e (List.mem_cons_of_mem _ he)
          have ihh := ih hwf hne' hcompat' h
          intro p
          constructor
          · rintro ⟨e, he, hu, hpre⟩
            rcases List.mem_cons.1 he with heq | hmem
            · subst heq
              have hrp : r.kindAt p = none := kindAt_none_of_prefix hkqnone hpre
              by_cases hex2 : ∃ e ∈ rest, e.1 ∉ proc ∧ e.1 <+: p
              · exact (ihh p).1 hex2
              · rw [(ihh p).2 hex2]
                exact hrp
            · exact (ihh p).1 ⟨e, hmem, hu, hpre⟩
          · intro hnex
            refine (ihh p).2 ?_
            rintro ⟨e, hm, hu, hp2⟩
            exact hnex ⟨e, List.mem_cons_of_mem _ hm, hu, hp2⟩
      | dir =>
        by_cases hex : (r.lookupPath q).isSome = true
        · have hkq : r.kindAt q = some .dirK := by
            rcases hk : r.kindAt q with _ | k
            · rw [lookupPath_isSome_iff] at hex
              exact absurd hk hex
            · cases k with
              | dirK => rfl
              | fileK c =>
                rw [hk] at hcompatq
                exact absurd hcompatq (by simp [kindCompat])
          obtain ⟨n, qt, rfl⟩ : ∃ n qt, q = n :: qt := by
            cases hq0 : q with
            | nil => exact absurd hq0 (hne (q, Info.dir) (List.mem_cons_self _ _))
            | cons n qt => exact ⟨n, qt, rfl⟩
          obtain ⟨r₁, hrm⟩ := rmtree_ok_of_dirK hkq
          simp only [remove_item, if_neg hproc, if_pos hex, hrm] at h
          rcases hr : remove_item rest proc r₁ with e₀ | ⟨r₃, lg₃⟩
          · rw [hr] at h
            exact Except.noConfusion h
          · rw [hr] at h
            cases h
            have hfr := rmtree_kindAt hwf hrm
            have hcompat' : ∀ e ∈ rest, e.1 ∉ proc → kindCompat (r₁.kindAt e.1) e.2 := by
              intro e he hu
              by_cases hqe : (n :: qt) <+: e.1
              · rw [hfr.1 e.1 hqe]
                exact kindCompat_none e.2
              · rw [hfr.2 e.1 hqe]
                exact hcompat e (List.mem_cons_of_mem _ he) hu
            have ihh := ih (rmtree_wf hwf hrm) hne' hcompat' hr
            intro p
            constructor
            · rintro ⟨e, he, hu, hpre⟩
              rcases List.mem_cons.1 he with heq | hmem
              · subst heq
                have h1 : r₁.kindAt p = none := hfr.1 p hpre
                by_cases hex2 : ∃ e ∈ rest, e.1 ∉ proc ∧ e.1 <+: p
                · exact (ihh p).1 hex2
                · rw [(ihh p).2 hex2]
                  exact h1
              · exact (ihh p).1 ⟨e, hmem, hu, hpre⟩
            · intro hnex
              have hnq : ¬ (n :: qt) <+: p := fun hpre =>
                hnex ⟨(n :: qt, Info.dir), List.mem_cons_self _ _, hproc, hpre⟩
              have hnex' : ¬ ∃ e ∈ rest, e.1 ∉ proc ∧ e.1 <+: p := by
                rintro ⟨e, hm, hu, hp2⟩
                exact hnex ⟨e, List.mem_cons_of_mem _ hm, hu, hp2⟩
              rw [(ihh p).2 hnex', hfr.2 p hnq]
        · have hkqnone : r.kindAt q = none := by
            rcases hk : r.kindAt q with _ | k
            · rfl
            · exfalso
              apply hex
              rw [lookupPath_isSome_iff, hk]
              simp
          simp only [remove_item, if_neg hproc, if_neg hex] at h
          have hcompat' : ∀ e ∈ rest, e.1 ∉ proc → kindCompat (r.kindAt e.1) e.2 :=
            fun e he => hcompat e (List.mem_cons_of_mem _ he)
          have ihh := ih hwf hne' hcompat' h
          intro p
          constructor
          · rintro ⟨e, he, hu, hpre⟩
            rcases List.mem_cons.1 he with heq | hmem
            · subst heq
              have hrp : r.kindAt p = none := kindAt_none_of_prefix hkqnone hpre
              by_cases hex2 : ∃ e ∈ rest, e.1 ∉ proc ∧ e.1 <+: p
              · exact (ihh p).1 hex2
              · rw [(ihh p).2 hex2]
                exact hrp
            · exact (ihh p).1 ⟨e, hmem, hu, hpre⟩
          · intro hnex
            refine (ihh p).2 ?_
            rintro ⟨e, hm, hu, hp2⟩
            exact hnex ⟨e, List.mem_cons_of_mem _ hm, hu, hp2⟩

/-! ### No-op (steady state) lemmas -/

theorem sync_directories_noop {items repl : List (Path × Info)} {d : FsDir}
    (hall : ∀ e ∈ items, isDirRow e = true → slookup repl e.1 ≠ none) :
    sync_directories items repl d = .ok (d, [], (items.filter isDirRow).map Prod.fst) := by
  induction items with
  | nil => simp [sync_directories]
  | cons hd rest ih =>
    rcases hd with ⟨p, i⟩
    cases i with
    | file h' =>
      simp only [sync_directories]
      rw [ih (fun e he => hall e (List.mem_cons_of_mem _ he))]
      simp [isFileRow, isDirRow]
    | dir =>
      have hsl : ¬ slookup repl p = none :=
        hall (p, Info.dir) (List.mem_cons_self _ _) rfl
      simp only [sync_directories, if_neg hsl]
      rw [ih (fun e he => hall e (List.mem_cons_of_mem _ he))]
      simp [isDirRow]

theorem sync_files_noop {items repl : List (Path × Info)} {s r : FsDir}
    (hall : ∀ e ∈ items, ∀ h', e.2 = Info.file h' → slookup repl e.1 = some (Info.file h')) :
    sync_files items repl s r = .ok (r, [], (items.filter isFileRow).map Prod.fst) := by
  induction items with
  | nil => simp [sync_files]
  | cons hd rest ih =>
    rcases hd with ⟨p, i⟩
    cases i with
    | dir =>
      rw [sync_files_cons_dir]
      rw [ih (fun e he => hall e (List.mem_cons_of_mem _ he))]
      simp [isFileRow]
    | file h' =>
      have hsl : slookup repl p = some (Info.file h') :=
        hall (p, Info.file h') (List.mem_cons_self _ _) h' rfl
      have hdec : copyDecision repl p h' = .ok none := by
        simp [copyDecision, hsl]
      simp only [sync_files, hdec]
      rw [ih (fun e he => hall e (List.mem_cons_of_mem _ he))]
      simp [isFileRow]

theorem remove_item_noop {items : List (Path × Info)} {proc : List Path} {r : FsDir}
    (hall : ∀ e ∈ items, e.1 ∈ proc) :
    remove_item items proc r = .ok (r, []) := by
  induction items with
  | nil => simp [remove_item]
  | cons hd rest ih =>
    rcases hd with ⟨p, i⟩
    have hp : p ∈ proc := hall (p, i) (List.mem_cons_self _ _)
    simp only [remove_item, if_pos hp]
    exact ih (fun e he => hall e (List.mem_cons_of_mem _ he))

/-! ### `remove_item` decomposition lemmas for subtree deletion -/

theorem remove_item_append {a b : List (Path × Info)} {proc : List Path} {r : FsDir} :
    remove_item (a ++ b) proc r =
      match remove_item a proc r with
      | .error e => .error e
      | .ok (r₁, lg₁) =>
        match remove_item b proc r₁ with
        | .error e => .error e
        | .ok (r₂, lg₂) => .ok (r₂, lg₁ ++ lg₂) := by
  induction a generalizing r with
  | nil =>
    simp only [List.nil_append, remove_item]
    rcases hb : remove_item b proc r with e | ⟨r₂, lg₂⟩ <;> simp
  | cons hd a' ih =>
    rcases hd with ⟨q, i⟩
    by_cases hproc : q ∈ proc
    · simp only [List.cons_append, remove_item, if_pos hproc]
      exact ih
    · cases i with
      | file hh =>
        by_cases hex : (r.lookupPath q).isSome = true
        · rcases hrm : r.removeFile q with e₀ | r₁
          · simp only [List.cons_append, remove_item, if_neg hproc, if_pos hex, hrm]
          · simp only [List.cons_append, remove_item, if_neg hproc, if_pos hex, hrm]
            simp only [List.append_eq]
            rw [ih]
            rcases ha : remove_item a' proc r₁ with e₀ | ⟨r₃, lg₃⟩
            · simp [ha]
            · rcases hb : remove_item b proc r₃ with e₀ | ⟨r₄, lg₄⟩ <;> simp [ha, hb]
        · simp only [List.cons_append, remove_item, if_neg hproc, if_neg hex]
          exact ih
      | dir =>
        by_cases hex : (r.lookupPath q).isSome = true
        · rcases hrm : r.rmtree q with e₀ | r₁
          · simp only [List.cons_append, remove_item, if_neg hproc, if_pos hex, hrm]
            exact ih
          · simp only [List.cons_append, remove_item, if_neg hproc, if_pos hex, hrm]
            simp only [List.append_eq]
            rw [ih]
            rcases ha : remove_item a' proc r₁ with e₀ | ⟨r₃, lg₃⟩
            · simp [ha]
            · rcases hb : remove_item b proc r₃ with e₀ | ⟨r₄, lg₄⟩ <;> simp [ha, hb]
        · simp only [List.cons_append, remove_item, if_neg hproc, if_neg hex]
          exact ih

theorem remove_item_noLog {items : List (Path × Info)} {proc : List Path} {r r₂ : FsDir}
    {lg : List LogEntry} (hwf : r.wfB = true) (dpre : Path)
    (hnone : ∀ p, dpre <+: p → r.kindAt p = none)
    (h : remove_item items proc r = .ok (r₂, lg)) :
    lg.filter (fun e => dpre.isPrefixOf e.path) = [] := by
  induction items generalizing r r₂ lg with
  | nil =>
    simp only [remove_item] at h
    cases h
    simp
  | cons hd rest ih =>
    rcases hd with ⟨q, i⟩
    by_cases hproc : q ∈ proc
    · simp only [remove_item, if_pos hproc] at h
      exact ih hwf hnone h
    · cases i with
      | file hh =>
        by_cases hex : (r.lookupPath q).isSome = true
        · have hndq : ¬ dpre <+: q := by
            intro hpre
            rw [lookupPath_isSome_iff] at hex
            exact hex (hnone q hpre)
          rcases hrm : r.removeFile q with e₀ | r₁
          · simp only [remove_item, if_neg hproc, if_pos hex, hrm] at h
            exact Except.noConfusion h
          · simp only [remove_item, if_neg hproc, if_pos hex, hrm] at h
            rcases hr : remove_item rest proc r₁ with e₀ | ⟨r₃, lg₃⟩
            · rw [hr] at h
              exact Except.noConfusion h
            · rw [hr] at h
              cases h
              have hfr := removeFile_kindAt hrm
              have hnone' : ∀ p, dpre <+: p → r₁.kindAt p = none := by
                intro p hpre
                by_cases hqp : q <+: p
                · exact hfr.1 p hqp
                · rw [hfr.2 p hqp]
                  exact hnone p hpre
              rw [List.filter_cons]
              have : (dpre.isPrefixOf q) = false := by
                rw [← Bool.not_eq_true, List.isPrefixOf_iff_prefix]
                exact hndq
              simp only [this, Bool.false_eq_true, if_false]
              exact ih (removeFile_wf hwf hrm) hnone' hr
        · simp only [remove_item, if_neg hproc, if_neg hex] at h
          exact ih hwf hnone h
      | dir =>
        by_cases hex : (r.lookupPath q).isSome = true
        · have hndq : ¬ dpre <+: q := by
            intro hpre
            rw [lookupPath_isSome_iff] at hex
            exact hex (hnone q hpre)
          rcases hrm : r.rmtree q with e₀ | r₁
          · simp only [remove_item, if_neg hproc, if_pos hex, hrm] at h
            exact ih hwf hnone h
          · simp only [remove_item, if_neg hproc, if_pos hex, hrm] at h
            rcases hr : remove_item rest proc r₁ with e₀ | ⟨r₃, lg₃⟩
            · rw [hr] at h
              exact Except.noConfusion h
            · rw [hr] at h
              cases h
              have hfr := rmtree_kindAt hwf hrm
              have hnone' : ∀ p, dpre <+: p → r₁.kindAt p = none := by
                intro p hpre
                by_cases hqp : q <+: p
                · exact hfr.1 p hqp
                · rw [hfr.2 p hqp]
                  exact hnone p hpre
              rw [List.filter_cons]
              have : (dpre.isPrefixOf q) = false := by
                rw [← Bool.not_eq_true, List.isPrefixOf_iff_prefix]
                exact hndq
              simp only [this, Bool.false_eq_true, if_false]
              exact ih (rmtree_wf hwf hrm) hnone' hr
        · simp only [remove_item, if_neg hproc, if_neg hex] at h
          exact ih hwf hnone h

/-! ### Bridging helpers for the whole-pass theorems -/

theorem kindCompat_kindInfo (k : EKind) : kindCompat (some k) (kindInfo k) := by
  cases k <;> trivial

theorem kindInfo_file_inj {k : EKind} {c : String}
    (h : kindInfo k = Info.file (some c)) : k = .fileK c := by
  cases k with
  | dirK => simp [kindInfo] at h
  | fileK c₂ =>
    simp [kindInfo, calculate_md5] at h
    rw [h]

theorem kindInfo_dir_inj {k : EKind} (h : kindInfo k = Info.dir) : k = .dirK := by
  cases k with
  | dirK => rfl
  | fileK c₂ => simp [kindInfo] at h

theorem walk_mem_kindAt {d : FsDir} (hwf : d.wfB = true) {p : Path} {i : Info}
    (h : (p, i) ∈ walkList d) : ∃ k, d.kindAt p = some k ∧ kindInfo k = i := by
  have hp : p ≠ [] := walkList_path_ne_nil (p, i) h
  have hsl : slookup (walkList d) p = some i :=
    slookup_of_mem (walkList_keys_nodup hwf) h
  rw [slookup_walkList hwf hp] at hsl
  rcases hk : d.kindAt p with _ | k
  · rw [hk] at hsl
    exact Option.noConfusion hsl
  · rw [hk] at hsl
    exact ⟨k, rfl, by simpa using hsl⟩

theorem kindAt_mem_walk {d : FsDir} (hwf : d.wfB = true) {p : Path} {k : EKind}
    (hp : p ≠ []) (h : d.kindAt p = some k) : (p, kindInfo k) ∈ walkList d := by
  apply mem_of_slookup
  rw [slookup_walkList hwf hp, h]
  rfl

theorem mem_filter_rows {items : List (Path × Info)} {q : Path} :
    q ∈ ((items.filter isDirRow).map Prod.fst ++ (items.filter isFileRow).map Prod.fst) ↔
      q ∈ items.map Prod.fst := by
  simp only [List.mem_append, List.mem_map, List.mem_filter]
  constructor
  · rintro (⟨e, ⟨he, -⟩, rfl⟩ | ⟨e, ⟨he, -⟩, rfl⟩) <;> exact ⟨e, he, rfl⟩
  · rintro ⟨e, he, rfl⟩
    rcases e with ⟨pe, ie⟩
    cases ie with
    | dir => exact Or.inl ⟨(pe, Info.dir), ⟨he, rfl⟩, rfl⟩
    | file h' => exact Or.inr ⟨(pe, Info.file h'), ⟨he, by simp [isFileRow]⟩, rfl⟩

theorem walk_file_no_extension {s : FsDir} (hwfs : s.wfB = true) :
    ∀ e e', e ∈ walkList s → e' ∈ walkList s → isFileRow e = true →
      e.1 <+: e'.1 → e.1 = e'.1 := by
  intro e e' he he' hrow hpre
  by_contra hne
  obtain ⟨k, hk, hki⟩ := walk_mem_kindAt hwfs (p := e.1) (i := e.2) (by simpa using he)
  obtain ⟨k', hk', -⟩ := walk_mem_kindAt hwfs (p := e'.1) (i := e'.2) (by simpa using he')
  have hdir : s.kindAt e.1 = some .dirK :=
    kindAt_prefix_dirK (by rw [hk']; simp) hpre hne
  rw [hk] at hdir
  cases hdir
  rcases e with ⟨pe, ie⟩
  cases ie with
  | dir => simp [isFileRow] at hrow
  | file h' => simp [kindInfo] at hki

theorem copyDecision_none_inv {repl : List (Path × Info)} {p : Path} {h : Option String}
    (hd : copyDecision repl p h = .ok none) : slookup repl p = some (Info.file h) := by
  rcases hs : slookup repl p with _ | i
  · simp [copyDecision, hs] at hd
  · cases i with
    | dir => simp [copyDecision, hs] at hd
    | file rh =>
      by_cases hrh : rh = h
      · rw [hrh]
      · simp [copyDecision, hs, hrh] at hd

theorem get_directory_contents_eq_walk (r : Option FsDir) (base : Path) :
    get_directory_contents r = walkList ((create_replica_root r base).1) := by
  cases r <;> rfl

theorem synchronize_inv {s : FsDir} {r : Option FsDir} {base : Path} {r' : FsDir}
    {lg : List LogEntry} (h : synchronize s r base = .ok (r', lg)) :
    ∃ r₁ lg₁ proc₁ r₂ lg₂ proc₂ lg₃,
      sync_directories (walkList s) (get_directory_contents r)
          ((create_replica_root r base).1) = .ok (r₁, lg₁, proc₁) ∧
      sync_files (walkList s) (get_directory_contents r) s r₁ = .ok (r₂, lg₂, proc₂) ∧
      remove_item (get_directory_contents r) (proc₁ ++ proc₂) r₂ = .ok (r', lg₃) ∧
      lg = (create_replica_root r base).2 ++ lg₁ ++ lg₂ ++ lg₃ := by
  simp only [synchronize] at h
  rcases h1 : sync_directories (get_directory_contents (some s)) (get_directory_contents r)
      ((create_replica_root r base).1) with e | ⟨r₁, lg₁, proc₁⟩
  · simp only [h1] at h
    exact Except.noConfusion h
  · simp only [h1] at h
    rcases h2 : sync_files (get_directory_contents (some s)) (get_directory_contents r)
        s r₁ with e | ⟨r₂, lg₂, proc₂⟩
    · simp only [h2] at h
      exact Except.noConfusion h
    · simp only [h2] at h
      rcases h3 : remove_item (get_directory_contents r) (proc₁ ++ proc₂) r₂ with
        e | ⟨r₃, lg₃⟩
      · simp only [h3] at h
        exact Except.noConfusion h
      · simp only [h3] at h
        cases h
        exact ⟨r₁, lg₁, proc₁, r₂, lg₂, proc₂, lg₃, h1, h2, h3, rfl⟩

/-- The kind found at each non-root path of the replica after a successful
pass, in terms of the source tree and the initial replica tree: source files
are present with the source content, source directories are present — except
that a replica **file** occupying a source directory's path survives
untouched (the unhandled kind-conflict) — and paths absent from the source
are absent from the replica. -/
theorem synchronize_kindAt {s : FsDir} {r : Option FsDir} {base : Path} {r' : FsDir}
    {lg : List LogEntry} (hwfs : s.wfB = true)
    (hwfr : ((create_replica_root r base).1).wfB = true)
    (hok : synchronize s r base = .ok (r', lg)) :
    ∀ p : Path, p ≠ [] →
      (∀ c, s.kindAt p = some (.fileK c) → r'.kindAt p = some (.fileK c)) ∧
      (s.kindAt p = some .dirK → r'.kindAt p =
        (match ((create_replica_root r base).1).kindAt p with
         | some (.fileK c) => some (.fileK c)
         | _ => some .dirK)) ∧
      (s.kindAt p = none → r'.kindAt p = none) := by
  obtain ⟨r₁, lg₁, proc₁, r₂, lg₂, proc₂, lg₃, hph1, hph2, hph3, -⟩ := synchronize_inv hok
  have hrepl := get_directory_contents_eq_walk r base
  have hndsrc : ((walkList s).map Prod.fst).Nodup := walkList_keys_nodup hwfs
  have hnoext := walk_file_no_extension hwfs
  have hwf1 : r₁.wfB = true := sync_directories_wf hwfr hph1
  have hwf2 : r₂.wfB = true := sync_files_wf hwf1 hph2
  have hproc1 := sync_directories_proc hph1
  have hproc2 := sync_files_proc hph2
  have hprocmem : ∀ q, q ∈ proc₁ ++ proc₂ ↔ q ∈ (walkList s).map Prod.fst := by
    intro q
    rw [hproc1, hproc2]
    exact mem_filter_rows
  have d1 := sync_directories_kindAt hph1
  have hslrepl : ∀ q : Path, q ≠ [] → slookup (get_directory_contents r) q =
      (((create_replica_root r base).1).kindAt q).map kindInfo := by
    intro q hq
    rw [hrepl]
    exact slookup_walkList hwfr hq
  have hne3 : ∀ e ∈ get_directory_contents r, e.1 ≠ [] := by
    rw [hrepl]
    exact walkList_path_ne_nil
  have hcompat3 : ∀ e ∈ get_directory_contents r, e.1 ∉ proc₁ ++ proc₂ →
      kindCompat (r₂.kindAt e.1) e.2 := by
    intro e he hu
    obtain ⟨k, hk, hki⟩ := walk_mem_kindAt hwfr (hrepl ▸ he)
    have hnk : e.1 ∉ (walkList s).map Prod.fst := fun hmem => hu ((hprocmem e.1).2 hmem)
    have h1 : r₁.kindAt e.1 = ((create_replica_root r base).1).kindAt e.1 :=
      (d1 e.1).1 (by rw [hk]; simp)
    have h2 : r₂.kindAt e.1 = r₁.kindAt e.1 := by
      refine sync_files_nonNone hph2 e.1 (by rw [h1, hk]; simp) ?_
      intro e' he' hrow heq
      exact hnk (heq ▸ List.mem_map.2 ⟨e', he', rfl⟩)
    rw [h2, h1, hk, ← hki]
    exact kindCompat_kindInfo k
  have d3 := remove_item_kindAt hwf2 hne3 hcompat3 hph3
  intro p hp
  have hnopre : s.kindAt p ≠ none →
      ¬ ∃ e ∈ get_directory_contents r, e.1 ∉ proc₁ ++ proc₂ ∧ e.1 <+: p := by
    rintro hsome ⟨e, he, hu, hpre⟩
    apply hu
    rw [hprocmem]
    by_cases heq : e.1 = p
    · rcases hk : s.kindAt p with _ | k
      · exact absurd hk hsome
      · have := kindAt_mem_walk hwfs hp hk
        rw [heq]
        exact List.mem_map.2 ⟨(p, kindInfo k), this, rfl⟩
    · have hdir : s.kindAt e.1 = some .dirK := kindAt_prefix_dirK hsome hpre heq
      have := kindAt_mem_walk hwfs (hne3 e he) hdir
      exact List.mem_map.2 ⟨(e.1, kindInfo .dirK), this, rfl⟩
  refine ⟨?_, ?_, ?_⟩
  · -- source file p: present in the replica with the source content
    intro c hkp
    have hmem : (p, Info.file (calculate_md5 c)) ∈ walkList s :=
      kindAt_mem_walk hwfs hp hkp
    obtain ⟨v, hdec⟩ := sync_files_decision_ok hph2 (p, Info.file (calculate_md5 c))
      hmem (calculate_md5 c) rfl
    have h2 : r₂.kindAt p = some (.fileK c) := by
      cases v with
      | some op =>
        obtain ⟨c₂, hsc, hrc⟩ := sync_files_copied hndsrc hph2
          (p, Info.file (calculate_md5 c)) hmem (calculate_md5 c) op rfl hdec
        rw [hkp] at hsc
        cases hsc
        exact hrc
      | none =>
        have hsl := copyDecision_none_inv hdec
        rw [hslrepl p hp] at hsl
        rcases hk0 : ((create_replica_root r base).1).kindAt p with _ | k
        · rw [hk0] at hsl
          exact Option.noConfusion hsl
        · rw [hk0] at hsl
          have hkc : k = .fileK c := kindInfo_file_inj (by simpa [calculate_md5] using hsl)
          subst hkc
          have h1 : r₁.kindAt p = some (.fileK c) := by
            rw [(d1 p).1 (by rw [hk0]; simp), hk0]
          rw [sync_files_skipped hndsrc hnoext hph2 (p, Info.file (calculate_md5 c))
            hmem (calculate_md5 c) rfl hdec]
          exact h1
    rw [(d3 p).2 (hnopre (by rw [hkp]; simp))]
    exact h2
  · -- source directory p
    intro hkp
    have hmem : (p, Info.dir) ∈ walkList s := kindAt_mem_walk hwfs hp hkp
    have hnotfile : ∀ e' ∈ walkList s, isFileRow e' = true → p ≠ e'.1 := by
      intro e' he' hrow heq
      obtain ⟨k, hk, hki⟩ := walk_mem_kindAt hwfs he'
      rw [← heq, hkp] at hk
      cases hk
      rcases e' with ⟨pe, ie⟩
      cases ie with
      | dir => simp [isFileRow] at hrow
      | file h' => simp [kindInfo] at hki
    have hpreserve3 : r'.kindAt p = r₂.kindAt p :=
      (d3 p).2 (hnopre (by rw [hkp]; simp))
    rcases hk0 : ((create_replica_root r base).1).kindAt p with _ | k
    · -- absent in the replica: created as a directory
      have h1 : r₁.kindAt p = some .dirK := by
        refine (d1 p).2.1 hk0 ⟨(p, Info.dir), hmem, rfl, ?_, List.prefix_refl p⟩
        rw [hslrepl p hp, hk0]
        rfl
      have h2 : r₂.kindAt p = some .dirK := by
        rw [sync_files_nonNone hph2 p (by rw [h1]; simp) hnotfile]
        exact h1
      rw [hpreserve3, h2]
    · cases k with
      | dirK =>
        have h1 : r₁.kindAt p = some .dirK := by
          rw [(d1 p).1 (by rw [hk0]; simp), hk0]
        have h2 : r₂.kindAt p = some .dirK := by
          rw [sync_files_nonNone hph2 p (by rw [h1]; simp) hnotfile]
          exact h1
        rw [hpreserve3, h2]
      | fileK c =>
        have h1 : r₁.kindAt p = some (.fileK c) := by
          rw [(d1 p).1 (by rw [hk0]; simp), hk0]
        have h2 : r₂.kindAt p = some (.fileK c) := by
          rw [sync_files_nonNone hph2 p (by rw [h1]; simp) hnotfile]
          exact h1
        rw [hpreserve3, h2]
  · -- path absent from the source: absent from the replica
    intro hkp
    have hnk : p ∉ (walkList s).map Prod.fst := by
      intro hmem
      obtain ⟨e, he, heq⟩ := List.mem_map.1 hmem
      obtain ⟨k, hk, -⟩ := walk_mem_kindAt hwfs he
      rw [heq, hkp] at hk
      exact Option.noConfusion hk
    have hnodir : ¬ ∃ e ∈ walkList s, isDirRow e = true ∧
        slookup (get_directory_contents r) e.1 = none ∧ p <+: e.1 := by
      rintro ⟨e, he, hrow, -, hpre⟩
      obtain ⟨k, hk, hki⟩ := walk_mem_kindAt hwfs he
      by_cases heq : p = e.1
      · rw [← heq, hkp] at hk
        exact Option.noConfusion hk
      · have := kindAt_prefix_dirK (p := e.1) (by rw [hk]; simp) hpre heq
        rw [this] at hkp
        exact Option.noConfusion hkp
    have h1 : r₁.kindAt p = ((create_replica_root r base).1).kindAt p := by
      rcases hk0 : ((create_replica_root r base).1).kindAt p with _ | k
      · exact (d1 p).2.2 hk0 hnodir
      · exact ((d1 p).1 (by rw [hk0]; simp)).trans hk0
    have h2 : r₂.kindAt p = r₁.kindAt p := by
      refine sync_files_frame hph2 p ?_
      intro e he hrow hpre
      by_cases heq : p = e.1
      · exact hnk (heq ▸ List.mem_map.2 ⟨e, he, rfl⟩)
      · obtain ⟨k, hk, -⟩ := walk_mem_kindAt hwfs he
        have := kindAt_prefix_dirK (p := e.1) (by rw [hk]; simp) hpre heq
        rw [this] at hkp
        exact Option.noConfusion hkp
    rcases hk0 : ((create_replica_root r base).1).kindAt p with _ | k
    · by_cases hex : ∃ e ∈ get_directory_contents r, e.1 ∉ proc₁ ++ proc₂ ∧ e.1 <+: p
      · exact (d3 p).1 hex
      · rw [(d3 p).2 hex, h2, h1, hk0]
    · refine (d3 p).1 ⟨(p, kindInfo k), ?_, ?_, List.prefix_refl p⟩
      · rw [hrepl]
        exact kindAt_mem_walk hwfr hp hk0
      · intro hu
        exact hnk ((hprocmem p).1 hu)

theorem synchronize_wf {s : FsDir} {r : Option FsDir} {base : Path} {r' : FsDir}
    {lg : List LogEntry} (hwfr : ((create_replica_root r base).1).wfB = true)
    (hok : synchronize s r base = .ok (r', lg)) : r'.wfB = true := by
  obtain ⟨r₁, lg₁, proc₁, r₂, lg₂, proc₂, lg₃, hph1, hph2, hph3, -⟩ := synchronize_inv hok
  exact remove_item_wf (sync_files_wf (sync_directories_wf hwfr hph1) hph2) hph3

theorem slookup_walkList_nil (d : FsDir) : slookup (walkList d) [] = none := by
  rw [slookup_eq_none]
  intro hmem
  obtain ⟨e, he, heq⟩ := List.mem_map.1 hmem
  exact walkList_path_ne_nil e he heq

/-! ### Claim theorems -/

/-- C1 (counterexample): with source `{d/: directory}` and replica
`{d: file "x"}` — a kind-conflict — the pass succeeds, appends no log
record, and leaves the replica file in place, so the replica snapshot does
not equal the source snapshot at path `d`. -/
theorem synchronize_convergence_counterexample :
    synchronize (FsDir.mk [("d", FsDir.empty)] []) (some (FsDir.mk [] [("d", "x")]))
        ["replica"] = .ok (FsDir.mk [] [("d", "x")], []) ∧
    slookup (walkList (FsDir.mk [] [("d", "x")])) ["d"] = some (Info.file (some "x")) ∧
    slookup (walkList (FsDir.mk [("d", FsDir.empty)] [])) ["d"] = some Info.dir := by
  refine ⟨rfl, rfl, rfl⟩

/-- C1 (amended): for every well-formed source tree and initial replica
state with no kind-conflict in which a source directory's path is a replica
file, after one successful pass the replica snapshot equals the source
snapshot: the same relative paths with the same kinds and the same content
fingerprints. -/
theorem synchronize_convergence {s : FsDir} {r : Option FsDir} {base : Path}
    {r' : FsDir} {lg : List LogEntry} (hwfs : s.wfB = true)
    (hwfr : ((create_replica_root r base).1).wfB = true)
    (hnc : ∀ p c, slookup (walkList s) p = some Info.dir →
      slookup (get_directory_contents r) p ≠ some (Info.file c))
    (hok : synchronize s r base = .ok (r', lg)) :
    ∀ p, slookup (walkList r') p = slookup (walkList s) p := by
  have hwfr' : r'.wfB = true := synchronize_wf hwfr hok
  have KA := synchronize_kindAt hwfs hwfr hok
  intro p
  by_cases hp : p = []
  · subst hp
    rw [slookup_walkList_nil, slookup_walkList_nil]
  · rw [slookup_walkList hwfr' hp, slookup_walkList hwfs hp]
    rcases hks : s.kindAt p with _ | k
    · rw [(KA p hp).2.2 hks]
    · cases k with
      | fileK c =>
        rw [(KA p hp).1 c hks]
      | dirK =>
        have hmatch := (KA p hp).2.1 hks
        rcases hk0 : ((create_replica_root r base).1).kindAt p with _ | k₀
        · rw [hk0] at hmatch
          rw [hmatch]
        · cases k₀ with
          | dirK =>
            rw [hk0] at hmatch
            rw [hmatch]
          | fileK c =>
            exfalso
            refine hnc p (calculate_md5 c) ?_ ?_
            · rw [slookup_walkList hwfs hp, hks]
              rfl
            · rw [get_directory_contents_eq_walk r base, slookup_walkList hwfr hp, hk0]
              rfl

/-- C1 (witness): the amended convergence theorem applied to the concrete
source `{a: "1"}` and an absent replica. -/
theorem synchronize_convergence_witness :
    slookup (walkList (FsDir.mk [] [("a", "1")])) ["a"] =
      slookup (walkList (FsDir.mk [] [("a", "1")])) ["a"] :=
  @synchronize_convergence (FsDir.mk [] [("a", "1")]) none ["r"]
    (FsDir.mk [] [("a", "1")])
    [⟨"CREATE", ["r"]⟩, ⟨"COPY", ["a"]⟩]
    (by rfl) (by rfl)
    (fun p c h => by simp [get_directory_contents, slookup])
    (by with_unfolding_all rfl) ["a"]

/-- C2: running `synchronize` a second time immediately after a successful
pass, with the source tree unchanged, performs zero filesystem mutations
and appends zero log records: every directory already exists so no CREATE,
every file's fingerprint matches so no COPY/UPDATE, and every replica path
is processed so no REMOVE. -/
theorem synchronize_idempotent {s : FsDir} {r : Option FsDir} {base : Path} {r' : FsDir}
    {lg : List LogEntry} (hwfs : s.wfB = true)
    (hwfr : ((create_replica_root r base).1).wfB = true)
    (hok : synchronize s r base = .ok (r', lg)) :
    synchronize s (some r') base = .ok (r', []) := by
  have hwfr' : r'.wfB = true := synchronize_wf hwfr hok
  have KA := synchronize_kindAt hwfs hwfr hok
  have hdirs : ∀ e ∈ walkList s, isDirRow e = true → slookup (walkList r') e.1 ≠ none := by
    intro e he hrow
    have hpe : e.1 ≠ [] := walkList_path_ne_nil e he
    obtain ⟨k, hk, hki⟩ := walk_mem_kindAt hwfs he
    have hkd : k = .dirK := by
      rcases e with ⟨pe, ie⟩
      cases ie with
      | dir => exact kindInfo_dir_inj hki
      | file h' => simp [isDirRow] at hrow
    subst hkd
    have hmatch := (KA e.1 hpe).2.1 hk
    rw [slookup_walkList hwfr' hpe]
    rcases hk0 : ((create_replica_root r base).1).kindAt e.1 with _ | k0
    · rw [hk0] at hmatch
      rw [hmatch]
      simp
    · cases k0 with
      | dirK =>
        rw [hk0] at hmatch
        rw [hmatch]
        simp
      | fileK c =>
        rw [hk0] at hmatch
        rw [hmatch]
        simp
  have hfiles : ∀ e ∈ walkList s, ∀ h', e.2 = Info.file h' →
      slookup (walkList r') e.1 = some (Info.file h') := by
    intro e he h' hfe
    have hpe : e.1 ≠ [] := walkList_path_ne_nil e he
    obtain ⟨k, hk, hki⟩ := walk_mem_kindAt hwfs he
    cases k with
    | dirK =>
      rw [hfe] at hki
      simp [kindInfo] at hki
    | fileK c =>
      rw [hfe] at hki
      have hhc : h' = calculate_md5 c := by
        simpa [kindInfo] using hki.symm
      have hr' := (KA e.1 hpe).1 c hk
      rw [slookup_walkList hwfr' hpe, hr', hhc]
      rfl
  have hremove : ∀ e ∈ walkList r',
      e.1 ∈ ((walkList s).filter isDirRow).map Prod.fst
        ++ ((walkList s).filter isFileRow).map Prod.fst := by
    intro e he
    obtain ⟨k, hk, -⟩ := walk_mem_kindAt hwfr' he
    have hpe : e.1 ≠ [] := walkList_path_ne_nil e he
    have hs : s.kindAt e.1 ≠ none := by
      intro hnone
      rw [(KA e.1 hpe).2.2 hnone] at hk
      exact Option.noConfusion hk
    rw [mem_filter_rows]
    rcases hks : s.kindAt e.1 with _ | k'
    · exact absurd hks hs
    · exact List.mem_map.2 ⟨(e.1, kindInfo k'), kindAt_mem_walk hwfs hpe hks, rfl⟩
  have hnoop1 := sync_directories_noop (d := r') hdirs
  have hnoop2 := sync_files_noop (s := s) (r := r') hfiles
  have hnoop3 := remove_item_noop (r := r') hremove
  simp only [synchronize, get_directory_contents, create_replica_root, hnoop1, hnoop2, hnoop3]
  rfl

/-- C2 (witness): the idempotence theorem applied to the concrete source
`{a: "1"}` after the pass that copied it into an initially absent replica. -/
theorem synchronize_idempotent_witness :
    synchronize (FsDir.mk [] [("a", "1")]) (some (FsDir.mk [] [("a", "1")])) ["r"]
      = .ok (FsDir.mk [] [("a", "1")], []) :=
  @synchronize_idempotent (FsDir.mk [] [("a", "1")]) none ["r"]
    (FsDir.mk [] [("a", "1")])
    [⟨"CREATE", ["r"]⟩, ⟨"COPY", ["a"]⟩]
    (by rfl) (by rfl) (by with_unfolding_all rfl)

/-- C3 (counterexample): a path that is a file in the source and a
directory in the replica crashes the pass with `KeyError` (the replica's
directory row has no `"hash"` key), so the pass does not delete the stale
kind and copy the source kind. -/
theorem kind_conflict_crash_counterexample :
    synchronize (FsDir.mk [] [("f", "a")]) (some (FsDir.mk [("f", FsDir.empty)] []))
      ["r"] = .error .keyError := by
  with_unfolding_all rfl

/-- C3 (amended): a kind-conflict is not reconciled.  If a source file's
path is a replica directory the pass cannot succeed (it raises `KeyError`);
if a source directory's path is a replica file, a successful pass leaves
the replica file in place with its old content instead of deleting it and
creating the directory. -/
theorem kind_conflict_behavior {s : FsDir} {r : Option FsDir} {base : Path} {r' : FsDir}
    {lg : List LogEntry} (hwfs : s.wfB = true)
    (hwfr : ((create_replica_root r base).1).wfB = true)
    (hok : synchronize s r base = .ok (r', lg)) :
    (∀ p c, s.kindAt p = some (.fileK c) →
      ((create_replica_root r base).1).kindAt p ≠ some .dirK) ∧
    (∀ p c, s.kindAt p = some .dirK →
      ((create_replica_root r base).1).kindAt p = some (.fileK c) →
      r'.kindAt p = some (.fileK c)) := by
  have KA := synchronize_kindAt hwfs hwfr hok
  constructor
  · intro p c hkp hk0
    have hp : p ≠ [] := by
      intro h0
      subst h0
      rw [kindAt_nil] at hkp
      simp at hkp
    have hmem : (p, Info.file (calculate_md5 c)) ∈ walkList s :=
      kindAt_mem_walk hwfs hp hkp
    obtain ⟨r₁, lg₁, proc₁, r₂, lg₂, proc₂, lg₃, hph1, hph2, hph3, -⟩ := synchronize_inv hok
    obtain ⟨v, hdec⟩ := sync_files_decision_ok hph2 (p, Info.file (calculate_md5 c))
      hmem (calculate_md5 c) rfl
    have hsl : slookup (get_directory_contents r) p = some Info.dir := by
      rw [get_directory_contents_eq_walk r base, slookup_walkList hwfr hp, hk0]
      rfl
    rw [copyDecision, hsl] at hdec
    exact Except.noConfusion hdec
  · intro p c hkp hk0
    have hp : p ≠ [] := by
      intro h0
      subst h0
      rw [kindAt_nil] at hk0
      simp at hk0
    have := (KA p hp).2.1 hkp
    rw [hk0] at this
    exact this

/-- C3 (witness): with source `{d/: directory}` and replica `{d: file "x"}`
the pass succeeds and the replica path `d` still holds the file `"x"`. -/
theorem kind_conflict_behavior_witness :
    (FsDir.mk [] [("d", "x")]).kindAt ["d"] = some (.fileK "x") :=
  (@kind_conflict_behavior (FsDir.mk [("d", FsDir.empty)] [])
    (some (FsDir.mk [] [("d", "x")])) ["r"]
    (FsDir.mk [] [("d", "x")]) []
    (by rfl) (by rfl) (by with_unfolding_all rfl)).2 ["d"] "x"
    (by with_unfolding_all rfl) (by with_unfolding_all rfl)

/-- C4 (counterexample): a single failing copy action (here `shutil.copy2`
raising because the parent `d` is a file on the replica side) aborts the
whole pass: the remaining action — removing the replica-only file `g` — is
never attempted and no summary is produced. -/
theorem copy_failure_aborts_counterexample :
    synchronize (FsDir.mk [("d", FsDir.mk [] [("f", "a")])] [])
      (some (FsDir.mk [] [("d", "x"), ("g", "y")])) ["r"] = .error .notADirectory := by
  with_unfolding_all rfl

/-- C4 (amended): only a directory-removal (`shutil.rmtree`) failure is
caught per action — the pass then continues with the remaining entries and
logs nothing for the failed one; any other action failure propagates, as
the concrete aborted pass in the second conjunct shows, and no per-kind
success/failure counts exist anywhere in the program. -/
theorem action_failure_behavior :
    (∀ (q : Path) (c : String) (rest : List (Path × Info)) (proc : List Path) (r : FsDir),
      q ∉ proc → r.kindAt q = some (.fileK c) →
      remove_item ((q, Info.dir) :: rest) proc r = remove_item rest proc r) ∧
    synchronize (FsDir.mk [("d", FsDir.mk [] [("f", "a")])] [])
      (some (FsDir.mk [] [("d", "x"), ("g", "y")])) ["r"] = .error .notADirectory := by
  constructor
  · intro q c rest proc r hq hk
    obtain ⟨n, qt, rfl⟩ : ∃ n qt, q = n :: qt := by
      cases q with
      | nil =>
        rw [kindAt_nil] at hk
        simp at hk
      | cons n qt => exact ⟨n, qt, rfl⟩
    have hex : (r.lookupPath (n :: qt)).isSome = true := by
      rw [lookupPath_isSome_iff, hk]
      simp
    obtain ⟨e, hrm⟩ := rmtree_error_of_fileK hk
    simp only [remove_item, if_neg hq, if_pos hex, hrm]
  · with_unfolding_all rfl

/-- C4 (witness): a replica-only directory row whose path is actually a
file on disk makes `rmtree` fail; the failure is swallowed and the pass
continues as if the entry were not there. -/
theorem action_failure_behavior_witness :
    remove_item [(["q"], Info.dir)] [] (FsDir.mk [] [("q", "c")])
      = remove_item [] [] (FsDir.mk [] [("q", "c")]) :=
  action_failure_behavior.1 ["q"] "c" [] [] (FsDir.mk [] [("q", "c")])
    (by simp) (by rfl)

/-- C5 (counterexample): when the fingerprint of the source file `f` and of
the replica file `f` are both unknown (`None`), the file is *not* copied:
the pass performs no action and appends no record, leaving the replica
content `"b"` different from the source content `"a"`. -/
theorem unknown_fingerprint_counterexample :
    sync_files [(["f"], Info.file none)] [(["f"], Info.file none)]
      (FsDir.mk [] [("f", "a")]) (FsDir.mk [] [("f", "b")])
      = .ok (FsDir.mk [] [("f", "b")], [], [["f"]]) := by
  with_unfolding_all rfl

/-- C5 (amended): a fingerprint failure does not abort the pass — the
unknown fingerprint flows through lines 107–115 as `None` — and a file
row with unknown source fingerprint is treated as needing a copy when the
replica entry is absent (decision `COPY`) or carries a known and hence
different fingerprint (decision `UPDATE`); whenever the needs-copy step
completes, the source content really has been copied to the replica and
the record logged.  But when the replica's fingerprint is also unknown
the two `None` values compare equal, so the step succeeds while skipping
the file: no copy, no record, path still marked processed. -/
theorem unknown_fingerprint_behavior {p : Path} {repl : List (Path × Info)} {s r : FsDir} :
    (slookup repl p = none → copyDecision repl p none = .ok (some "COPY")) ∧
    (∀ c, slookup repl p = some (Info.file (some c)) →
      copyDecision repl p none = .ok (some "UPDATE")) ∧
    (∀ op r' lg proc, copyDecision repl p none = .ok (some op) →
      sync_files [(p, Info.file none)] repl s r = .ok (r', lg, proc) →
      lg = [⟨op, p⟩] ∧ proc = [p] ∧
        ∃ c, s.kindAt p = some (.fileK c) ∧ r'.kindAt p = some (.fileK c)) ∧
    (slookup repl p = some (Info.file none) →
      sync_files [(p, Info.file none)] repl s r = .ok (r, [], [p])) := by
  refine ⟨?_, ?_, ?_, ?_⟩
  · intro hsl
    simp [copyDecision, hsl]
  · intro c hsl
    simp [copyDecision, hsl]
  · intro op r' lg proc hdec hrun
    rcases sync_files_cons_file hrun with ⟨hd₀, r₃, lg₃, proc₃, hr, hout⟩ |
      ⟨op', r₁, c, r₂, r₃, lg₃, proc₃, hd₀, hp, hs, hw, hr, hout⟩
    · rw [hdec] at hd₀
      simp at hd₀
    · rw [hdec] at hd₀
      simp only [Except.ok.injEq, Option.some.injEq] at hd₀
      subst hd₀
      simp only [sync_files, Except.ok.injEq, Prod.mk.injEq] at hr
      obtain ⟨rfl, rfl, rfl⟩ := hr
      simp only [Prod.mk.injEq] at hout
      obtain ⟨rfl, rfl, rfl⟩ := hout
      refine ⟨rfl, rfl, c, ?_, ?_⟩
      · simp only [FsDir.kindAt, hs]
      · exact (copy_step_kindAt hp hw).1
  · intro hsl
    have hdec : copyDecision repl p none = .ok none := by
      simp [copyDecision, hsl]
    simp only [sync_files, hdec]

/-- C5 (witness): with the replica entry at `g` absent, the decision for a
source file `g` of unknown fingerprint is `COPY`, and the completed step
has logged `COPY g`, marked `g` processed, and placed the source content
`"new"` at `g` in the replica. -/
theorem unknown_fingerprint_behavior_witness :
    ([⟨"COPY", ["g"]⟩] : List LogEntry) = [⟨"COPY", ["g"]⟩] ∧
    ([["g"]] : List Path) = [["g"]] ∧
    ∃ c, (FsDir.mk [] [("g", "new")]).kindAt ["g"] = some (.fileK c) ∧
      (FsDir.mk [] [("g", "new")]).kindAt ["g"] = some (.fileK c) :=
  (@unknown_fingerprint_behavior ["g"] [] (FsDir.mk [] [("g", "new")])
      (FsDir.mk [] [])).2.2.1 "COPY" (FsDir.mk [] [("g", "new")])
    [⟨"COPY", ["g"]⟩] [["g"]] (by rfl) (by with_unfolding_all rfl)

/-- C6: for source `{foo.txt: "hello"}` and replica
`{foo.txt: "world", bar.txt: "x"}`, the pass performs exactly an
update-copy of `foo.txt` (logged as `UPDATE`) and a deletion of `bar.txt`
(logged as `REMOVE`), and no other action: the full log is those two
records and the final replica holds exactly `foo.txt` with `"hello"`. -/
theorem update_and_remove_scenario :
    synchronize (FsDir.mk [] [("foo.txt", "hello")])
      (some (FsDir.mk [] [("foo.txt", "world"), ("bar.txt", "x")])) ["replica"]
      = .ok (FsDir.mk [] [("foo.txt", "hello")],
          [⟨"UPDATE", ["foo.txt"]⟩, ⟨"REMOVE", ["bar.txt"]⟩]) := by
  with_unfolding_all rfl

theorem copyDecision_op {repl : List (Path × Info)} {p : Path} {h : Option String}
    {op : String} (hd : copyDecision repl p h = .ok (some op)) :
    op = "COPY" ∨ op = "UPDATE" := by
  rcases hs : slookup repl p with _ | i
  · simp only [copyDecision, hs] at hd
    cases hd
    exact Or.inl rfl
  · cases i with
    | dir =>
      simp only [copyDecision, hs] at hd
      exact Except.noConfusion hd
    | file rh =>
      by_cases hrh : rh ≠ h
      · simp only [copyDecision, hs, if_pos hrh] at hd
        cases hd
        exact Or.inr rfl
      · simp only [copyDecision, hs, if_neg hrh] at hd
        simp at hd

theorem createRow_some {repl : List (Path × Info)} {a : Path × Info} {e : LogEntry}
    (h : createRow repl a = some e) : e.operation = "CREATE" ∧ e.path = a.1 := by
  rcases a with ⟨pa, ia⟩
  cases ia with
  | file h' => simp [createRow] at h
  | dir =>
    by_cases hsl : slookup repl pa = none
    · simp only [createRow, hsl, eq_self_iff_true, if_true] at h
      cases h
      exact ⟨rfl, rfl⟩
    · simp [createRow, hsl] at h

theorem logRow_some {repl : List (Path × Info)} {a : Path × Info} {e : LogEntry}
    (h : logRow repl a = some e) :
    (e.operation = "COPY" ∨ e.operation = "UPDATE") ∧ e.path = a.1 := by
  rcases a with ⟨pa, ia⟩
  cases ia with
  | dir => simp [logRow] at h
  | file h' =>
    rcases hd : copyDecision repl pa h' with e₀ | v
    · simp [logRow, hd] at h
    · cases v with
      | none => simp [logRow, hd] at h
      | some op =>
        simp only [logRow, hd] at h
        cases h
        exact ⟨copyDecision_op hd, rfl⟩

theorem filterMap_createRow_paths_sublist (repl items) :
    (((items : List (Path × Info)).filterMap (createRow repl)).map LogEntry.path).Sublist
      (items.map Prod.fst) := by
  induction items with
  | nil => simp
  | cons a t ih =>
    rw [List.filterMap_cons]
    rcases hc : createRow repl a with _ | e
    · exact ih.cons a.1
    · rw [List.map_cons, List.map_cons, (createRow_some hc).2]
      exact ih.cons₂ a.1

/-- C7: in the log of every successful pass, every directory-creation
record (including the replica-root record) precedes every file-copy
record, and the directory-creation records of the tree are ordered parents
before children (an earlier record's path never strictly extends a later
one's). -/
theorem create_before_copy_ordering {s : FsDir} {r : Option FsDir} {base : Path}
    {r' : FsDir} {lg : List LogEntry} (hwfs : s.wfB = true)
    (hok : synchronize s r base = .ok (r', lg)) :
    ∃ L0 L1 L2 L3, lg = L0 ++ L1 ++ L2 ++ L3 ∧
      (∀ e ∈ L0, e.operation = "CREATE") ∧
      (∀ e ∈ L1, e.operation = "CREATE") ∧
      (∀ e ∈ L2, e.operation = "COPY" ∨ e.operation = "UPDATE") ∧
      (∀ e ∈ L3, e.operation = "REMOVE") ∧
      (L1.map LogEntry.path).Pairwise parentRel := by
  obtain ⟨r₁, lg₁, proc₁, r₂, lg₂, proc₂, lg₃, hph1, hph2, hph3, hlg⟩ := synchronize_inv hok
  refine ⟨(create_replica_root r base).2, lg₁, lg₂, lg₃, hlg, ?_, ?_, ?_, ?_, ?_⟩
  · intro e he
    cases r with
    | some d => simp [create_replica_root] at he
    | none =>
      have : e = (⟨"CREATE", base⟩ : LogEntry) := by
        simpa [create_replica_root] using he
      rw [this]
  · intro e he
    rw [sync_directories_log hph1] at he
    obtain ⟨a, -, hc⟩ := List.mem_filterMap.1 he
    exact (createRow_some hc).1
  · intro e he
    rw [sync_files_log hph2] at he
    obtain ⟨a, -, hc⟩ := List.mem_filterMap.1 he
    exact (logRow_some hc).1
  · intro e he
    exact (remove_item_log hph3 e he).1
  · rw [sync_directories_log hph1]
    exact (walkList_keys_pairwise hwfs).sublist
      (filterMap_createRow_paths_sublist (get_directory_contents r) (walkList s))

/-- C7 (witness): the ordering theorem applied to the pass that created a
directory and copied a file into an initially absent replica. -/
theorem create_before_copy_ordering_witness :
    ∃ L0 L1 L2 L3,
      ([⟨"CREATE", ["r"]⟩, ⟨"CREATE", ["d"]⟩, ⟨"COPY", ["a"]⟩] : List LogEntry)
        = L0 ++ L1 ++ L2 ++ L3 ∧
      (∀ e ∈ L0, e.operation = "CREATE") ∧
      (∀ e ∈ L1, e.operation = "CREATE") ∧
      (∀ e ∈ L2, e.operation = "COPY" ∨ e.operation = "UPDATE") ∧
      (∀ e ∈ L3, e.operation = "REMOVE") ∧
      (L1.map LogEntry.path).Pairwise parentRel :=
  @create_before_copy_ordering (FsDir.mk [("d", FsDir.empty)] [("a", "1")])
    none ["r"]
    (FsDir.mk [("d", FsDir.empty)] [("a", "1")])
    [⟨"CREATE", ["r"]⟩, ⟨"CREATE", ["d"]⟩, ⟨"COPY", ["a"]⟩]
    (by rfl) (by with_unfolding_all rfl)

/-- C8: every append of a log record reads the whole existing log — empty
when the file is missing, and started fresh (empty again) when the file is
unreadable or corrupt — appends the new record to the in-memory list, and
rewrites the whole list. -/
theorem log_append_rewrite :
    ∀ (entry : LogEntry) (f : LogFile),
      log_operation entry f = .parsed (existingLogs f ++ [entry]) ∧
      existingLogs LogFile.corrupt = [] ∧ existingLogs LogFile.absent = [] :=
  fun _ _ => ⟨rfl, rfl, rfl⟩

/-- C9 (counterexample): with an empty source and an absent replica rooted
at `home/replica`, the pass appends one record whose path is the full
`replica_path` argument, yet the synchronized tree has no entries at all —
so the record's path is not a path relative to the tree root. -/
theorem log_root_path_counterexample :
    synchronize FsDir.empty none ["home", "replica"]
      = .ok (FsDir.empty, [⟨"CREATE", ["home", "replica"]⟩]) ∧
    (walkList FsDir.empty).map Prod.fst = [] := by
  constructor
  · with_unfolding_all rfl
  · rfl

/-- C9 (amended): every record appended during a pass has operation
`CREATE`, `COPY`, `UPDATE` or `REMOVE`, and its path is the relative path
of a source or replica snapshot row — except the record emitted when the
replica root is first created, whose path is the whole `replica_path`
argument, not a relative path. -/
theorem log_record_shape {s : FsDir} {r : Option FsDir} {base : Path}
    {r' : FsDir} {lg : List LogEntry}
    (hok : synchronize s r base = .ok (r', lg)) :
    ∀ e ∈ lg,
      (e.operation = "CREATE" ∨ e.operation = "COPY" ∨ e.operation = "UPDATE" ∨
        e.operation = "REMOVE") ∧
      (e.path ∈ (walkList s).map Prod.fst ∨
        e.path ∈ (get_directory_contents r).map Prod.fst ∨
        (e = ⟨"CREATE", base⟩ ∧ r = none)) := by
  obtain ⟨r₁, lg₁, proc₁, r₂, lg₂, proc₂, lg₃, hph1, hph2, hph3, hlg⟩ := synchronize_inv hok
  subst hlg
  intro e he
  rcases List.mem_append.1 he with he | he₃
  · rcases List.mem_append.1 he with he | he₂
    · rcases List.mem_append.1 he with he₀ | he₁
      · cases r with
        | some d => simp [create_replica_root] at he₀
        | none =>
          have : e = (⟨"CREATE", base⟩ : LogEntry) := by
            simpa [create_replica_root] using he₀
          subst this
          exact ⟨Or.inl rfl, Or.inr (Or.inr ⟨rfl, rfl⟩)⟩
      · rw [sync_directories_log hph1] at he₁
        obtain ⟨a, ha, hc⟩ := List.mem_filterMap.1 he₁
        obtain ⟨hop, hpath⟩ := createRow_some hc
        exact ⟨Or.inl hop, Or.inl (hpath ▸ List.mem_map.2 ⟨a, ha, rfl⟩)⟩
    · rw [sync_files_log hph2] at he₂
      obtain ⟨a, ha, hc⟩ := List.mem_filterMap.1 he₂
      obtain ⟨hop, hpath⟩ := logRow_some hc
      refine ⟨?_, Or.inl (hpath ▸ List.mem_map.2 ⟨a, ha, rfl⟩)⟩
      rcases hop with hop | hop
      · exact Or.inr (Or.inl hop)
      · exact Or.inr (Or.inr (Or.inl hop))
  · obtain ⟨hop, hpath, -⟩ := remove_item_log hph3 e he₃
    exact ⟨Or.inr (Or.inr (Or.inr hop)), Or.inr (Or.inl hpath)⟩

/-- C9 (witness): the record-shape theorem applied to the replica-root
creation record of a concrete pass. -/
theorem log_record_shape_witness :
    ((⟨"CREATE", ["home", "replica"]⟩ : LogEntry).operation = "CREATE" ∨
      (⟨"CREATE", ["home", "replica"]⟩ : LogEntry).operation = "COPY" ∨
      (⟨"CREATE", ["home", "replica"]⟩ : LogEntry).operation = "UPDATE" ∨
      (⟨"CREATE", ["home", "replica"]⟩ : LogEntry).operation = "REMOVE") ∧
    ((⟨"CREATE", ["home", "replica"]⟩ : LogEntry).path ∈
        (walkList FsDir.empty).map Prod.fst ∨
      (⟨"CREATE", ["home", "replica"]⟩ : LogEntry).path ∈
        (get_directory_contents (none : Option FsDir)).map Prod.fst ∨
      ((⟨"CREATE", ["home", "replica"]⟩ : LogEntry) =
          ⟨"CREATE", ["home", "replica"]⟩ ∧ (none : Option FsDir) = none)) :=
  @log_record_shape FsDir.empty none ["home", "replica"]
    FsDir.empty [⟨"CREATE", ["home", "replica"]⟩]
    (by with_unfolding_all rfl) ⟨"CREATE", ["home", "replica"]⟩ (by simp)

/-- C10: one `REMOVE` record per deleted subtree.  Run the removal phase of
a pass over the full replica snapshot `walkList R`.  Let `d` be a directory
row of the snapshot that is scheduled for deletion (`d ∉ proc`) and is the
topmost such row (every snapshotted proper ancestor of `d` was processed).
Then among all records whose path lies inside the subtree rooted at `d`
(i.e. has `d` as a prefix), exactly one record is appended: a `REMOVE`
naming `d` itself.  The nested files and subdirectories are removed from
the tree by the recursive `rmtree`, but when their snapshot rows are
reached later they fail the `os.path.exists` check that guards both the
removal and the logging, so they produce no records. -/
theorem remove_subtree_single_record {R : FsDir} {proc : List Path} {R' : FsDir}
    {lg : List LogEntry} (hwf : R.wfB = true)
    (hok : remove_item (walkList R) proc R = .ok (R', lg))
    {d : Path} (hd : (d, Info.dir) ∈ walkList R) (hdu : d ∉ proc)
    (htop : ∀ q ∈ (walkList R).map Prod.fst, q <+: d → q ≠ d → q ∈ proc) :
    lg.filter (fun e => d.isPrefixOf e.path) = [⟨"REMOVE", d⟩] := by
  obtain ⟨pre, post, hsplit⟩ := List.mem_iff_append.mp hd
  have hkeys : (walkList R).map Prod.fst = pre.map Prod.fst ++ d :: post.map Prod.fst := by
    rw [hsplit]
    simp
  have hnd := walkList_keys_nodup hwf
  have hpw := walkList_keys_pairwise hwf
  rw [hkeys] at hnd hpw
  have hdpre : d ∉ pre.map Prod.fst := by
    rcases List.nodup_append.1 hnd with ⟨-, -, hdisj⟩
    intro hmem
    exact hdisj hmem (List.mem_cons_self _ _)
  have hpre_nodesc : ∀ a ∈ pre.map Prod.fst, ¬ d <+: a := by
    intro a ha hda
    rcases List.pairwise_append.1 hpw with ⟨-, -, hcross⟩
    have had : a = d := hcross a ha d (List.mem_cons_self _ _) hda
    exact hdpre (had ▸ ha)
  have hpre_nopref : ¬ ∃ e ∈ pre, e.1 ∉ proc ∧ e.1 <+: d := by
    rintro ⟨e, he, hup, hpre2⟩
    have hmem : e.1 ∈ pre.map Prod.fst := List.mem_map_of_mem _ he
    have hne : e.1 ≠ d := fun h => hdpre (h ▸ hmem)
    have hwalk : e.1 ∈ (walkList R).map Prod.fst := by
      rw [hkeys]
      exact List.mem_append_left _ hmem
    exact hup (htop e.1 hwalk hpre2 hne)
  rw [hsplit, remove_item_append] at hok
  rcases hpre_run : remove_item pre proc R with e₀ | ⟨r₁, lg₁⟩ <;>
    simp only [hpre_run] at hok
  · exact Except.noConfusion hok
  have hwf₁ : r₁.wfB = true := remove_item_wf hwf hpre_run
  have hne_pre : ∀ e ∈ pre, e.1 ≠ [] := by
    intro e he
    exact walkList_path_ne_nil e (by rw [hsplit]; exact List.mem_append_left _ he)
  have hcompat_pre : ∀ e ∈ pre, e.1 ∉ proc → kindCompat (R.kindAt e.1) e.2 := by
    intro e he _
    obtain ⟨k, hk, hki⟩ := walk_mem_kindAt hwf (p := e.1) (i := e.2)
      (by rw [hsplit]; exact List.mem_append_left _ he)
    rw [hk, ← hki]
    exact kindCompat_kindInfo k
  have hRd : R.kindAt d = some .dirK := by
    obtain ⟨k, hk, hki⟩ := walk_mem_kindAt hwf hd
    rw [hk, kindInfo_dir_inj hki]
  have hr₁d : r₁.kindAt d = some .dirK := by
    rw [(remove_item_kindAt hwf hne_pre hcompat_pre hpre_run d).2 hpre_nopref]
    exact hRd
  have hlg₁ : lg₁.filter (fun e => d.isPrefixOf e.path) = [] := by
    rw [List.filter_eq_nil_iff]
    intro e he
    rw [List.isPrefixOf_iff_prefix]
    exact hpre_nodesc _ (remove_item_log hpre_run e he).2.1
  obtain ⟨n, dt, rfl⟩ : ∃ n dt, d = n :: dt := by
    cases d with
    | nil => exact absurd rfl (walkList_path_ne_nil _ hd)
    | cons n dt => exact ⟨n, dt, rfl⟩
  have hex : ((r₁.lookupPath (n :: dt)).isSome) = true := by
    rw [lookupPath_isSome_iff, hr₁d]
    simp
  obtain ⟨r₂, hrm⟩ := rmtree_ok_of_dirK hr₁d
  simp only [remove_item, if_neg hdu, if_pos hex, hrm] at hok
  rcases hpost_run : remove_item post proc r₂ with e₀ | ⟨r₃, lg₃⟩ <;>
    simp only [hpost_run] at hok
  · exact Except.noConfusion hok
  cases hok
  have hwf₂ : r₂.wfB = true := rmtree_wf hwf₁ hrm
  have hnone : ∀ p, (n :: dt) <+: p → r₂.kindAt p = none := (rmtree_kindAt hwf₁ hrm).1
  have hlg₃ : lg₃.filter (fun e => (n :: dt).isPrefixOf e.path) = [] :=
    remove_item_noLog hwf₂ (n :: dt) hnone hpost_run
  rw [List.filter_append, hlg₁, List.filter_cons]
  have hself : ((n :: dt : Path).isPrefixOf (n :: dt)) = true := by
    rw [List.isPrefixOf_iff_prefix]
  simp only [hself, if_true, hlg₃, List.nil_append]

/-- C10 (witness): applying the single-record theorem to the replica
snapshot of `{dd/: dir, dd/f: file "x"}` with nothing processed: the
removal run deletes the whole subtree and the record list filtered to the
subtree of `dd` is exactly `[REMOVE dd]` — no record for the nested file
`dd/f`. -/
theorem remove_subtree_single_record_witness :
    ([⟨"REMOVE", ["dd"]⟩] : List LogEntry).filter
      (fun e => (["dd"] : Path).isPrefixOf e.path) = [⟨"REMOVE", ["dd"]⟩] :=
  @remove_subtree_single_record
    (FsDir.mk [("dd", FsDir.mk [] [("f", "x")])] [])
    [] (FsDir.mk [] []) [⟨"REMOVE", ["dd"]⟩]
    (by decide)
    (by with_unfolding_all rfl)
    ["dd"]
    (by with_unfolding_all exact List.mem_cons_self _ _)
    (by simp)
    (by decide)

end Sync
